import Mathlib

/-!
# simplelru: a fixed-capacity LRU cache (`src/simplelru/lru.go`)

Shallow embedding of the Go package `simplelru` and proofs of its contract.

## Modelling conventions

* Keys `K` and values `V` stand for the dynamic values held in Go's
  `interface{}`; keys in `K` are compared with a decidable, reflexive
  equality, as the comparable, hashable key types of a Go map are (a
  floating-point NaN, which differs from itself, is outside the model).  A key
  of an unhashable dynamic type is the constructor `Key.unhashable`; the
  methods that start with a map read are given for any such key as `AddAny`,
  `GetAny`, `PeekAny` and `RemoveAny`.
* A `*list.Element` is an address (a natural number).  The element's `Value`
  field always holds the `*entity` it was created with, so the element and its
  entity share one cell of `LRU.heap`; reading a cell that does not exist is
  the model's runtime failure (`none`), the counterpart of a failed
  `Value.(*entity)` assertion.
* `evictList` is the `container/list` list, written front (most recently used)
  to back (least recently used) as the list of its element addresses.
* `items` is the Go map, written as an association list; its order stands for
  the unspecified iteration order of `range`.
* `onEvict` records whether the callback field is non-nil; every invocation of
  the callback is appended to the ghost trace `calls`, together with the
  contents of `items` and `evictList` at the moment of the call.  The callback
  itself is taken not to call back into the cache.
* Every method returns `Option (LRU × result)`: `none` is a runtime failure,
  otherwise the cache after the call and the values returned.  A missing
  `interface{}` result (`nil`) is `none` in the result.
* Three functions of the source are not accepted by the Go compiler as they
  are written: `Contains` (line 79, `_, ok := c.items[key]` declares no new
  variable), `Keys` (lines 120 to 127, the slice is declared as `kes` but
  written and returned as `keys`, and line 124 reads `entity.Value`, the type,
  where the loop variable is `ent`) and the callback call of `removeElement`
  (line 146, `c.onEvict(entity.key, entity, value)` with three arguments and an
  undeclared `value`).  Their definitions here follow a reading of these lines
  (`_, ok =`; `keys`, `ent.Value`; `entity.value`), named in the comment of
  each.  What is proved of the value handed to the callback by
  `removeElement`, of the result of `Keys` and of the result of `Contains` is
  proved of that reading, not of the lines as written; the theorems concerned
  say so.
-/

namespace simplelru

/-- The Go type `entity`: a key with its value. -/
structure entity (K V : Type) where
  key : K
  value : V
deriving DecidableEq

/-- One invocation of the eviction callback: its two arguments and what the
key index and the recency list held when it was called. -/
structure Call (K V : Type) where
  key : K
  value : V
  items : List (K × Nat)
  evictList : List Nat
deriving DecidableEq

/-- The Go type `LRU`, with the heap cells of its list elements and the trace
of callback invocations. -/
structure LRU (K V : Type) where
  size : Int
  evictList : List Nat
  items : List (K × Nat)
  onEvict : Bool
  heap : List (entity K V)
  calls : List (Call K V)
deriving DecidableEq

section Defs

variable {K V : Type} [DecidableEq K]

/-! ### The Go map `map[interface{}]*list.Element` -/

/-- Map read `m[k]` with the comma-ok form: `none` when the key is absent. -/
def mapGet : List (K × Nat) → K → Option Nat
  | [], _ => none
  | (k', a) :: m, k => if k' = k then some a else mapGet m k

/-- Builtin `delete(m, k)`. -/
def mapDelete (m : List (K × Nat)) (k : K) : List (K × Nat) :=
  m.filter (fun p => decide (p.1 ≠ k))

/-- Map write `m[k] = a`. -/
def mapSet (m : List (K × Nat)) (k : K) (a : Nat) : List (K × Nat) :=
  mapDelete m k ++ [(k, a)]

/-! ### The recency list (`container/list`) -/

/-- Modelled from the spec: `push_front` of the Recency List (section 4.1),
Go's `List.PushFront`; the new element becomes the front. -/
def PushFront (l : List Nat) (a : Nat) : List Nat := a :: l

/-- Modelled from the spec: `move_to_front` of the Recency List (section 4.1),
Go's `List.MoveToFront`; nothing happens when the element is not in the list
or is already the front. -/
def MoveToFront (l : List Nat) (a : Nat) : List Nat :=
  if a ∈ l then a :: l.erase a else l

/-- Modelled from the spec: `remove` of the Recency List (section 4.1), Go's
`List.Remove`; an element that is not in the list is left alone. -/
def Remove (l : List Nat) (a : Nat) : List Nat := l.erase a

/-- Modelled from the spec: `back` of the Recency List (section 4.1), Go's
`List.Back`; `none` is `nil`, the answer for an empty list. -/
def Back (l : List Nat) : Option Nat := l.getLast?

/-- Invocation of `c.onEvict(key, value)` behind the guard
`if c.onEvict != nil`. -/
def fire (c : LRU K V) (key : K) (value : V) : LRU K V :=
  if c.onEvict then
    { c with calls := c.calls ++ [⟨key, value, c.items, c.evictList⟩] }
  else c

/-- Go function `NewLRU`: an error for a size that is not positive, else an empty cache. -/
def NewLRU (size : Int) (onEvict : Bool) : Except String (LRU K V) :=
  if size ≤ 0 then
    .error "Must provide a positive size"
  else
    .ok { size := size, evictList := [], items := [], onEvict := onEvict,
          heap := [], calls := [] }

/-- Go function `LRU.Len`. -/
def LRU.Len (c : LRU K V) : Option (LRU K V × Int) :=
  some (c, (c.evictList.length : Int))

/-- Go function `LRU.removeElement`: unlink the element, drop its key from the
map, then call the callback.  Line 146 of the source is
`c.onEvict(entity.key, entity, value)`, which the compiler does not accept;
it is read here as `c.onEvict(entity.key, entity.value)`.  The statements
before it and the first argument are as written. -/
def LRU.removeElement (c : LRU K V) (e : Nat) : Option (LRU K V) :=
  let c1 := { c with evictList := Remove c.evictList e }
  match c1.heap[e]? with
  | none => none
  | some ent =>
    let c2 := { c1 with items := mapDelete c1.items ent.key }
    some (fire c2 ent.key ent.value)

/-- Go function `LRU.removeOldest`. -/
def LRU.removeOldest (c : LRU K V) : Option (LRU K V) :=
  match Back c.evictList with
  | some ent => c.removeElement ent
  | none => some c

/-- Go function `LRU.Add`. -/
def LRU.Add (c : LRU K V) (key : K) (value : V) : Option (LRU K V × Bool) :=
  match mapGet c.items key with
  | some ent =>
    let c1 := { c with evictList := MoveToFront c.evictList ent }
    match c1.heap[ent]? with
    | none => none
    | some e => some ({ c1 with heap := c1.heap.set ent { e with value := value } }, false)
  | none =>
    let ent := c.heap.length
    let c1 := { c with heap := c.heap ++ [entity.mk key value],
                       evictList := PushFront c.evictList ent }
    let c2 := { c1 with items := mapSet c1.items key ent }
    let evict := decide ((c2.evictList.length : Int) > c2.size)
    if evict then
      (c2.removeOldest).map (fun c3 => (c3, evict))
    else some (c2, evict)

/-- Go function `LRU.Get`. -/
def LRU.Get (c : LRU K V) (key : K) : Option (LRU K V × (Option V × Bool)) :=
  match mapGet c.items key with
  | some ent =>
    let c1 := { c with evictList := MoveToFront c.evictList ent }
    match c1.heap[ent]? with
    | none => none
    | some e => some (c1, (some e.value, true))
  | none => some (c, (none, false))

/-- Go function `LRU.Contains`.  Line 79 of the source is
`_, ok := c.items[key]`, which the compiler does not accept (`ok` is the named
result); it is read here as `_, ok = c.items[key]`, the comma-ok result of the
map read. -/
def LRU.Contains (c : LRU K V) (key : K) : Option (LRU K V × Bool) :=
  some (c, (mapGet c.items key).isSome)

/-- Go function `LRU.Peek`. -/
def LRU.Peek (c : LRU K V) (key : K) : Option (LRU K V × (Option V × Bool)) :=
  match mapGet c.items key with
  | some ent =>
    match c.heap[ent]? with
    | none => none
    | some e => some (c, (some e.value, true))
  | none => some (c, (none, false))

/-- Go function `LRU.Remove`. -/
def LRU.Remove (c : LRU K V) (key : K) : Option (LRU K V × Bool) :=
  match mapGet c.items key with
  | some ent => (c.removeElement ent).map (fun c1 => (c1, true))
  | none => some (c, false)

/-- Go function `LRU.RemoveOldest`. -/
def LRU.RemoveOldest (c : LRU K V) : Option (LRU K V × (Option K × Option V × Bool)) :=
  match Back c.evictList with
  | some ent =>
    match c.removeElement ent with
    | none => none
    | some c1 =>
      match c1.heap[ent]? with
      | none => none
      | some e => some (c1, (some e.key, some e.value, true))
  | none => some (c, (none, none, false))

/-- Go function `LRU.GetOldest`. -/
def LRU.GetOldest (c : LRU K V) : Option (LRU K V × (Option K × Option V × Bool)) :=
  match Back c.evictList with
  | some ent =>
    match c.heap[ent]? with
    | none => none
    | some e => some (c, (some e.key, some e.value, true))
  | none => some (c, (none, none, false))

/-- The loop of `LRU.Keys`: `ents` are the elements still to visit, `keys` the
slice and `i` the next index; a write past the end of the slice fails.  Line
124 of the source is `keys[i] = entity.Value.(*entity).key`, which the
compiler does not accept (`keys` is not declared and `entity` is the type); it
is read here as a write of `ent.Value.(*entity).key` into the slice that line
120 allocates. -/
def keysLoop (heap : List (entity K V)) :
    List Nat → List (Option K) → Nat → Option (List (Option K))
  | [], keys, _ => some keys
  | ent :: ents, keys, i =>
    match heap[ent]? with
    | none => none
    | some e =>
      if i < keys.length then keysLoop heap ents (keys.set i (some e.key)) (i + 1)
      else none

/-- Go function `LRU.Keys`: a slice of `len(c.items)` nil slots, filled while
walking the list from `Back()` along `Prev()`.  The source declares the slice
as `kes` (line 120) and returns `keys` (line 127), which the compiler does not
accept; both are read here as the one slice. -/
def LRU.Keys (c : LRU K V) : Option (LRU K V × List (Option K)) :=
  (keysLoop c.heap c.evictList.reverse (List.replicate c.items.length none) 0).map
    (fun keys => (c, keys))

/-- The loop of `LRU.Purge` over the entries `range` yields. -/
def purgeLoop : List (K × Nat) → LRU K V → Option (LRU K V)
  | [], c => some c
  | (k, v) :: rest, c =>
    if c.onEvict then
      match c.heap[v]? with
      | none => none
      | some e => purgeLoop rest { fire c k e.value with items := mapDelete c.items k }
    else purgeLoop rest { c with items := mapDelete c.items k }

/-- Go function `LRU.Purge`. -/
def LRU.Purge (c : LRU K V) : Option (LRU K V × Unit) :=
  (purgeLoop c.items c).map (fun c1 => ({ c1 with evictList := [] }, ()))

/-- A call of one public method of a cache. -/
inductive Op (K V : Type) where
  | add (key : K) (value : V)
  | get (key : K)
  | peek (key : K)
  | contains (key : K)
  | remove (key : K)
  | removeOldest
  | getOldest
  | keys
  | len
  | purge
deriving DecidableEq

/-- The cache after one call, the returned values dropped. -/
def Op.apply (c : LRU K V) : Op K V → Option (LRU K V)
  | .add key value => (c.Add key value).map Prod.fst
  | .get key => (c.Get key).map Prod.fst
  | .peek key => (c.Peek key).map Prod.fst
  | .contains key => (c.Contains key).map Prod.fst
  | .remove key => (c.Remove key).map Prod.fst
  | .removeOldest => (c.RemoveOldest).map Prod.fst
  | .getOldest => (c.GetOldest).map Prod.fst
  | .keys => (c.Keys).map Prod.fst
  | .len => (c.Len).map Prod.fst
  | .purge => (c.Purge).map Prod.fst

/-- The cache after a sequence of calls, first call first. -/
def run : List (Op K V) → LRU K V → Option (LRU K V)
  | [], c => some c
  | op :: ops, c =>
    match op.apply c with
    | none => none
    | some c1 => run ops c1

/-- Caches obtained from a successful `NewLRU` by public method calls. -/
inductive Reachable : LRU K V → Prop
  | new (size : Int) (onEvict : Bool) (c : LRU K V) :
      NewLRU size onEvict = .ok c → Reachable c
  | step (c c1 : LRU K V) (op : Op K V) :
      Reachable c → op.apply c = some c1 → Reachable c1

/-- The key and value held by the list element at address `a`. -/
def cell (c : LRU K V) (a : Nat) : Option (K × V) :=
  (c.heap[a]?).map (fun e => (e.key, e.value))

/-- The contents of the cache as the sequence of its entries, from the back of
the recency list (least recently used) to its front (most recently used). -/
def entries (c : LRU K V) : List (K × V) :=
  (c.evictList.filterMap (cell c)).reverse

/-- Agreement of the key index, the recency list and the heap. -/
structure Inv (c : LRU K V) : Prop where
  size_pos : 0 < c.size
  list_nodup : c.evictList.Nodup
  keys_nodup : (c.items.map Prod.fst).Nodup
  items_ok : ∀ k a, (k, a) ∈ c.items → a ∈ c.evictList ∧ ∃ v, c.heap[a]? = some ⟨k, v⟩
  list_ok : ∀ a, a ∈ c.evictList → ∃ e, c.heap[a]? = some e ∧ (e.key, a) ∈ c.items
  len_eq : c.items.length = c.evictList.length

/-- The invariant of a cache between two public calls: the structures agree
and the capacity is respected. -/
structure WF (c : LRU K V) : Prop where
  inv : Inv c
  len_le : (c.evictList.length : Int) ≤ c.size

end Defs

/-- Example cache: the state after `NewLRU(2, cb)`, `Add(1, 10)`, `Add(2, 20)`. -/
def exFull : LRU Nat Nat :=
  { size := 2, evictList := [1, 0], items := [(1, 0), (2, 1)], onEvict := true,
    heap := [⟨1, 10⟩, ⟨2, 20⟩], calls := [] }

section SpecDefs

variable {K V : Type} [DecidableEq K]

/-- Spec-level erasure (from the wording of the order semantics): the sequence
`E` with the entry of key `k` erased. -/
def specErase : List (K × V) → K → List (K × V)
  | [], _ => []
  | p :: E, k => if p.1 = k then E else p :: specErase E k

/-- Spec-level lookup: the value of the entry of key `k` in `E`, if any. -/
def specLookup : List (K × V) → K → Option V
  | [], _ => none
  | p :: E, k => if p.1 = k then some p.2 else specLookup E k

/-- Spec-level `Get(k)`: on a hit the entry of `k` is erased and appended again
at the end unchanged; on a miss nothing changes. -/
def specGet (E : List (K × V)) (k : K) : List (K × V) :=
  match specLookup E k with
  | some v => specErase E k ++ [(k, v)]
  | none => E

/-- Spec-level `Add(k, v)`: with `k` present its entry is erased and `(k, v)`
appended; with `k` absent the result is `E ++ [(k, v)]` below the size and
`tail(E) ++ [(k, v)]` at the size. -/
def specAdd (size : Int) (E : List (K × V)) (k : K) (v : V) : List (K × V) :=
  match specLookup E k with
  | some _ => specErase E k ++ [(k, v)]
  | none => if (E.length : Int) < size then E ++ [(k, v)] else E.tail ++ [(k, v)]

/-- Spec-level `Remove(k)`: the entry of `k` is erased. -/
def specRemove (E : List (K × V)) (k : K) : List (K × V) := specErase E k

/-- Spec-level `RemoveOldest()`: the tail of the sequence. -/
def specRemoveOldest (E : List (K × V)) : List (K × V) := E.tail

/-- The two arguments of a recorded callback invocation. -/
def Call.args (x : Call K V) : K × V := (x.key, x.value)

end SpecDefs

section AnyKey

variable {K V : Type} [DecidableEq K]

/-- A value offered as a key through Go's `interface{}`: of a hashable dynamic
type, with its value in `K`, or of an unhashable one (a slice, a map or a
function), for which a Go map read is a runtime panic. -/
inductive Key (K : Type) where
  | hashable (k : K)
  | unhashable
deriving DecidableEq

/-- Go function `LRU.Add` called with any `interface{}` key: its first
statement is the map read `c.items[key]` (line 49), a runtime panic for a key
of an unhashable dynamic type. -/
def LRU.AddAny (c : LRU K V) (key : Key K) (value : V) : Option (LRU K V × Bool) :=
  match key with
  | .hashable k => c.Add k value
  | .unhashable => none

/-- Go function `LRU.Get` called with any `interface{}` key: its first
statement is the map read `c.items[key]` (line 70). -/
def LRU.GetAny (c : LRU K V) (key : Key K) : Option (LRU K V × (Option V × Bool)) :=
  match key with
  | .hashable k => c.Get k
  | .unhashable => none

/-- Go function `LRU.Peek` called with any `interface{}` key: its first
statement is the map read `c.items[key]` (line 85). -/
def LRU.PeekAny (c : LRU K V) (key : Key K) : Option (LRU K V × (Option V × Bool)) :=
  match key with
  | .hashable k => c.Peek k
  | .unhashable => none

/-- Go function `LRU.Remove` called with any `interface{}` key: its first
statement is the map read `c.items[key]` (line 92). -/
def LRU.RemoveAny (c : LRU K V) (key : Key K) : Option (LRU K V × Bool) :=
  match key with
  | .hashable k => c.Remove k
  | .unhashable => none

end AnyKey

set_option linter.unusedSectionVars false

/-! ## The Go map -/

section Lemmas
variable {K V : Type} [DecidableEq K]

theorem mapGet_mem {m : List (K × Nat)} {k : K} {a : Nat} (h : mapGet m k = some a) :
    (k, a) ∈ m := by
  induction m with
  | nil => simp [mapGet] at h
  | cons p m ih =>
    obtain ⟨k', b⟩ := p
    by_cases hk : k' = k
    · simp [mapGet, hk] at h
      simp [hk, h]
    · simp [mapGet, hk] at h
      exact List.mem_cons_of_mem _ (ih h)

theorem mapGet_of_mem {m : List (K × Nat)} {k : K} {a : Nat}
    (hnd : (m.map Prod.fst).Nodup) (h : (k, a) ∈ m) : mapGet m k = some a := by
  induction m with
  | nil => simp at h
  | cons p m ih =>
    obtain ⟨k', b⟩ := p
    simp only [List.map_cons, List.nodup_cons] at hnd
    rcases List.mem_cons.1 h with h | h
    · cases h
      simp [mapGet]
    · have hne : k' ≠ k := by
        rintro rfl
        exact hnd.1 (List.mem_map_of_mem Prod.fst h)
      simp [mapGet, hne, ih hnd.2 h]

theorem mapGet_eq_none {m : List (K × Nat)} {k : K} :
    mapGet m k = none ↔ k ∉ m.map Prod.fst := by
  induction m with
  | nil => simp [mapGet]
  | cons p m ih =>
    obtain ⟨k', b⟩ := p
    by_cases hk : k' = k
    · simp [mapGet, hk]
    · simp [mapGet, hk, ih, Ne.symm hk]
      
theorem mem_mapDelete {m : List (K × Nat)} {k : K} {p : K × Nat} :
    p ∈ mapDelete m k ↔ p ∈ m ∧ p.1 ≠ k := by
  simp [mapDelete]

theorem mapDelete_of_not_mem {m : List (K × Nat)} {k : K} (h : k ∉ m.map Prod.fst) :
    mapDelete m k = m := by
  unfold mapDelete
  rw [List.filter_eq_self]
  intro p hp
  have : p.1 ≠ k := by
    rintro rfl
    exact h (List.mem_map_of_mem Prod.fst hp)
  simpa using this

theorem mapDelete_keys_nodup {m : List (K × Nat)} (k : K) (h : (m.map Prod.fst).Nodup) :
    ((mapDelete m k).map Prod.fst).Nodup :=
  h.sublist ((List.filter_sublist m).map Prod.fst)

theorem mapDelete_length {m : List (K × Nat)} {k : K} {a : Nat}
    (hnd : (m.map Prod.fst).Nodup) (h : (k, a) ∈ m) :
    (mapDelete m k).length + 1 = m.length := by
  induction m with
  | nil => simp at h
  | cons p m ih =>
    obtain ⟨k', b⟩ := p
    simp only [List.map_cons, List.nodup_cons] at hnd
    rcases List.mem_cons.1 h with h | h
    · cases h
      have := mapDelete_of_not_mem hnd.1
      rw [show mapDelete ((k, a) :: m) k = mapDelete m k by simp [mapDelete], this]
      simp
    · have hne : k' ≠ k := by
        rintro rfl
        exact hnd.1 (List.mem_map_of_mem Prod.fst h)
      have := ih hnd.2 h
      simp [mapDelete, hne] at this ⊢
      omega

end Lemmas

/-! ## The invariant and the entries of a cache -/

section InvLemmas
variable {K V : Type} [DecidableEq K]

theorem Inv.cell_of_mem {c : LRU K V} (h : Inv c) {a : Nat} (ha : a ∈ c.evictList) :
    ∃ k v, c.heap[a]? = some ⟨k, v⟩ ∧ (k, a) ∈ c.items ∧ cell c a = some (k, v) := by
  obtain ⟨e, he, hm⟩ := h.list_ok a ha
  exact ⟨e.key, e.value, he, hm, by simp [cell, he]⟩

theorem Inv.addr_lt {c : LRU K V} (h : Inv c) {a : Nat} (ha : a ∈ c.evictList) :
    a < c.heap.length := by
  obtain ⟨e, he, -⟩ := h.list_ok a ha
  by_contra hlt
  rw [List.getElem?_eq_none (Nat.le_of_not_lt hlt)] at he
  cases he

theorem Inv.addr_unique {c : LRU K V} (h : Inv c) {k : K} {a b : Nat}
    (ha : (k, a) ∈ c.items) (hb : (k, b) ∈ c.items) : a = b := by
  have h1 := mapGet_of_mem h.keys_nodup ha
  have h2 := mapGet_of_mem h.keys_nodup hb
  rw [h1] at h2
  exact Option.some.inj h2

/-- Two list elements with the same key are the same element. -/
theorem Inv.key_inj {c : LRU K V} (h : Inv c) {a b : Nat} {k : K} {v w : V}
    (ha : a ∈ c.evictList) (hb : b ∈ c.evictList)
    (hca : cell c a = some (k, v)) (hcb : cell c b = some (k, w)) : a = b := by
  obtain ⟨k1, v1, -, hm1, hc1⟩ := h.cell_of_mem ha
  obtain ⟨k2, v2, -, hm2, hc2⟩ := h.cell_of_mem hb
  rw [hca] at hc1
  rw [hcb] at hc2
  cases hc1
  cases hc2
  exact h.addr_unique hm1 hm2

theorem mem_entries_iff {c : LRU K V} {p : K × V} :
    p ∈ entries c ↔ ∃ a, a ∈ c.evictList ∧ cell c a = some p := by
  simp [entries, List.mem_filterMap]

theorem Inv.entries_length {c : LRU K V} (h : Inv c) :
    (entries c).length = c.evictList.length := by
  unfold entries
  rw [List.length_reverse]
  have : ∀ l : List Nat, (∀ a, a ∈ l → a ∈ c.evictList) →
      (l.filterMap (cell c)).length = l.length := by
    intro l
    induction l with
    | nil => simp
    | cons a l ih =>
      intro hl
      obtain ⟨k, v, -, -, hc⟩ := h.cell_of_mem (hl a (List.mem_cons_self _ _))
      rw [List.filterMap_cons_some hc]
      simp [ih (fun b hb => hl b (List.mem_cons_of_mem _ hb))]
  exact this _ (fun _ ha => ha)

theorem Inv.entries_keys_nodup {c : LRU K V} (h : Inv c) :
    ((entries c).map Prod.fst).Nodup := by
  unfold entries
  rw [List.map_reverse, List.nodup_reverse]
  have : ∀ l : List Nat, (∀ a, a ∈ l → a ∈ c.evictList) → l.Nodup →
      ((l.filterMap (cell c)).map Prod.fst).Nodup := by
    intro l
    induction l with
    | nil => simp
    | cons a l ih =>
      intro hl hnd
      have hal := hl a (List.mem_cons_self _ _)
      obtain ⟨k, v, -, -, hc⟩ := h.cell_of_mem hal
      rw [List.filterMap_cons_some hc, List.map_cons, List.nodup_cons]
      rw [List.nodup_cons] at hnd
      refine ⟨?_, ih (fun b hb => hl b (List.mem_cons_of_mem _ hb)) hnd.2⟩
      intro hmem
      obtain ⟨⟨k', w⟩, hp, hk⟩ := List.mem_map.1 hmem
      obtain ⟨b, hb, hcb⟩ := List.mem_filterMap.1 hp
      simp only at hk
      subst hk
      have := h.key_inj hal (hl b (List.mem_cons_of_mem _ hb)) hc hcb
      subst this
      exact hnd.1 hb
  exact this _ (fun _ ha => ha) h.list_nodup

/-- An entry of the cache is a key of the index whose element holds the value. -/
theorem Inv.mem_entries {c : LRU K V} (h : Inv c) {k : K} {v : V} :
    (k, v) ∈ entries c ↔ ∃ a, mapGet c.items k = some a ∧ c.heap[a]? = some ⟨k, v⟩ := by
  rw [mem_entries_iff]
  constructor
  · rintro ⟨a, ha, hc⟩
    obtain ⟨k1, v1, he, hm, hc1⟩ := h.cell_of_mem ha
    rw [hc] at hc1
    cases hc1
    exact ⟨a, mapGet_of_mem h.keys_nodup hm, he⟩
  · rintro ⟨a, hg, he⟩
    exact ⟨a, (h.items_ok k a (mapGet_mem hg)).1, by simp [cell, he]⟩

theorem Inv.not_mem_entries {c : LRU K V} (h : Inv c) {k : K} :
    k ∉ (entries c).map Prod.fst ↔ mapGet c.items k = none := by
  rw [mapGet_eq_none]
  constructor
  · intro hn hk
    obtain ⟨⟨k', a⟩, hp, rfl⟩ := List.mem_map.1 hk
    obtain ⟨-, v, hv⟩ := h.items_ok _ _ hp
    exact hn (List.mem_map.2 ⟨(k', v), (h.mem_entries).2 ⟨a, mapGet_of_mem h.keys_nodup hp, hv⟩, rfl⟩)
  · intro hn hk
    obtain ⟨⟨k', v⟩, hp, rfl⟩ := List.mem_map.1 hk
    obtain ⟨a, hg, -⟩ := (h.mem_entries).1 hp
    exact hn (List.mem_map.2 ⟨(k', a), mapGet_mem hg, rfl⟩)

end InvLemmas

/-! ## Calls that only read -/

section ReadOnly
variable {K V : Type} [DecidableEq K]

theorem Inv.Len_eq {c : LRU K V} (h : Inv c) :
    c.Len = some (c, ((entries c).length : Int)) := by
  simp [LRU.Len, h.entries_length]

theorem Inv.Contains_eq {c : LRU K V} (h : Inv c) (k : K) :
    c.Contains k = some (c, decide (k ∈ (entries c).map Prod.fst)) := by
  unfold LRU.Contains
  by_cases hk : k ∈ (entries c).map Prod.fst
  · cases hg : mapGet c.items k with
    | none => exact absurd hk ((h.not_mem_entries).2 hg)
    | some a => simp [hk]
  · rw [(h.not_mem_entries).1 hk]
    simp [hk]

theorem Inv.Peek_hit {c : LRU K V} (h : Inv c) {k : K} {v : V} (hk : (k, v) ∈ entries c) :
    c.Peek k = some (c, (some v, true)) := by
  obtain ⟨a, hg, he⟩ := (h.mem_entries).1 hk
  simp [LRU.Peek, hg, he]

theorem Inv.Peek_miss {c : LRU K V} (h : Inv c) {k : K} (hk : k ∉ (entries c).map Prod.fst) :
    c.Peek k = some (c, (none, false)) := by
  simp [LRU.Peek, (h.not_mem_entries).1 hk]

theorem Inv.Get_miss {c : LRU K V} (h : Inv c) {k : K} (hk : k ∉ (entries c).map Prod.fst) :
    c.Get k = some (c, (none, false)) := by
  simp [LRU.Get, (h.not_mem_entries).1 hk]

theorem Inv.Remove_miss {c : LRU K V} (h : Inv c) {k : K} (hk : k ∉ (entries c).map Prod.fst) :
    c.Remove k = some (c, false) := by
  simp [LRU.Remove, (h.not_mem_entries).1 hk]

/-- The back element of the list holds the first entry. -/
theorem Inv.back_eq {c : LRU K V} (h : Inv c) {a : Nat} (ha : Back c.evictList = some a) :
    ∃ k v, c.heap[a]? = some ⟨k, v⟩ ∧ (entries c).head? = some (k, v) ∧
      c.evictList = c.evictList.dropLast ++ [a] := by
  unfold Back at ha
  have hne : c.evictList ≠ [] := by
    intro h0
    rw [h0] at ha
    cases ha
  have hlast : c.evictList.getLast hne = a := by
    rw [List.getLast?_eq_getLast _ hne] at ha
    exact Option.some.inj ha
  have hsplit : c.evictList = c.evictList.dropLast ++ [a] := by
    rw [← hlast, List.dropLast_append_getLast]
  have hmem : a ∈ c.evictList := by
    rw [hsplit]
    simp
  obtain ⟨k, v, he, -, hc⟩ := h.cell_of_mem hmem
  refine ⟨k, v, he, ?_, hsplit⟩
  unfold entries
  rw [hsplit, List.filterMap_append]
  simp [hc]

theorem Inv.back_none {c : LRU K V} (ha : Back c.evictList = none) :
    c.evictList = [] ∧ entries c = [] := by
  unfold Back at ha
  have : c.evictList = [] := List.getLast?_eq_none_iff.1 ha
  simp [entries, this]

theorem Inv.GetOldest_cons {c : LRU K V} (h : Inv c) {k : K} {v : V} {E : List (K × V)}
    (hE : entries c = (k, v) :: E) : c.GetOldest = some (c, (some k, some v, true)) := by
  unfold LRU.GetOldest
  cases hb : Back c.evictList with
  | none =>
    rw [(Inv.back_none hb).2] at hE
    cases hE
  | some a =>
    obtain ⟨k', v', he, hh, -⟩ := h.back_eq hb
    rw [hE] at hh
    simp only [List.head?_cons, Option.some.injEq, Prod.mk.injEq] at hh
    obtain ⟨rfl, rfl⟩ := hh
    simp [he]

theorem Inv.GetOldest_nil {c : LRU K V} (h : Inv c) (hE : entries c = []) :
    c.GetOldest = some (c, (none, none, false)) := by
  unfold LRU.GetOldest
  cases hb : Back c.evictList with
  | none => rfl
  | some a =>
    obtain ⟨k', v', he, hh, -⟩ := h.back_eq hb
    rw [hE] at hh
    cases hh

theorem keysLoop_eq (heap : List (entity K V)) (ents : List Nat) :
    ∀ (pre : List (Option K)) (m : Nat), (∀ a, a ∈ ents → ∃ e, heap[a]? = some e) →
      keysLoop heap ents (pre ++ List.replicate (ents.length + m) none) pre.length =
        some (pre ++ ents.filterMap (fun a => (heap[a]?).map (fun e => some e.key)) ++
          List.replicate m none) := by
  induction ents with
  | nil => intro pre m _; simp [keysLoop]
  | cons a ents ih =>
    intro pre m hall
    obtain ⟨e, he⟩ := hall a (List.mem_cons_self _ _)
    have hlt : pre.length < (pre ++ List.replicate ((a :: ents).length + m) none).length := by
      simp
    have hset : (pre ++ List.replicate ((a :: ents).length + m) (none : Option K)).set pre.length
        (some e.key) = (pre ++ [some e.key]) ++ List.replicate (ents.length + m) none := by
      rw [List.set_append_right _ _ (le_refl _)]
      simp [List.length_cons, Nat.add_right_comm _ 1 m, List.replicate_succ]
    rw [keysLoop, he]
    simp only [hlt, if_true]
    rw [hset]
    have := ih (pre ++ [some e.key]) m (fun b hb => hall b (List.mem_cons_of_mem _ hb))
    simp only [List.length_append, List.length_singleton] at this
    rw [this]
    simp [he]

theorem Inv.Keys_eq {c : LRU K V} (h : Inv c) :
    c.Keys = some (c, (entries c).map (fun p => some p.1)) := by
  unfold LRU.Keys
  have hall : ∀ a, a ∈ c.evictList.reverse → ∃ e, c.heap[a]? = some e := by
    intro a ha
    obtain ⟨e, he, -⟩ := h.list_ok a (List.mem_reverse.1 ha)
    exact ⟨e, he⟩
  have := keysLoop_eq c.heap c.evictList.reverse [] 0 hall
  simp only [List.length_reverse, Nat.add_zero, List.nil_append, List.length_nil,
    List.replicate_zero, List.append_nil] at this
  rw [h.len_eq, this]
  simp [entries, cell, List.map_filterMap, List.filterMap_reverse, Function.comp_def]

end ReadOnly

/-! ## Calls that promote an entry -/

section Promote
variable {K V : Type} [DecidableEq K]

/-- Unlinking the element of key `k` erases the entry of `k`; `g` reads the
cells after the call and agrees with the cells before on the other
elements. -/
theorem Inv.filterMap_erase {c : LRU K V} (h : Inv c) {a : Nat} {k : K} {v : V}
    (ha : a ∈ c.evictList) (hc : cell c a = some (k, v)) (g : Nat → Option (K × V))
    (hg : ∀ b, b ∈ c.evictList → b ≠ a → g b = cell c b) :
    (c.evictList.erase a).filterMap g =
      (c.evictList.filterMap (cell c)).filter (fun p => decide (p.1 ≠ k)) := by
  rw [h.list_nodup.erase_eq_filter, List.filterMap_filter, List.filter_filterMap]
  apply List.filterMap_congr
  intro b hb
  by_cases hba : b = a
  · subst hba
    simp [hc, Option.filter]
  · obtain ⟨k', v', -, -, hcb⟩ := h.cell_of_mem hb
    have hk : k' ≠ k := by
      rintro rfl
      exact hba (h.key_inj hb ha hcb hc)
    simp [hba, hg b hb hba, hcb, Option.filter, hk]

theorem mem_MoveToFront {l : List Nat} {a b : Nat} : b ∈ MoveToFront l a ↔ b ∈ l := by
  unfold MoveToFront
  split
  · next h => exact (List.perm_cons_erase h).mem_iff.symm
  · rfl

theorem nodup_MoveToFront {l : List Nat} {a : Nat} (h : l.Nodup) : (MoveToFront l a).Nodup := by
  unfold MoveToFront
  split
  · next hm => exact (List.perm_cons_erase hm).nodup_iff.1 h
  · exact h

theorem length_MoveToFront {l : List Nat} {a : Nat} : (MoveToFront l a).length = l.length := by
  unfold MoveToFront
  split
  · next hm => exact (List.perm_cons_erase hm).length_eq.symm
  · rfl

/-- A hit of `Get`: the entry moves to the most recent end, nothing else
changes. -/
theorem Inv.Get_hit {c : LRU K V} (h : Inv c) {k : K} {v : V} (hk : (k, v) ∈ entries c) :
    ∃ c1, c.Get k = some (c1, (some v, true)) ∧ Inv c1 ∧
      entries c1 = (entries c).filter (fun p => decide (p.1 ≠ k)) ++ [(k, v)] ∧
      c1.evictList.length = c.evictList.length ∧
      c1.size = c.size ∧ c1.onEvict = c.onEvict ∧ c1.calls = c.calls := by
  obtain ⟨a, hg, he⟩ := (h.mem_entries).1 hk
  have ha : a ∈ c.evictList := (h.items_ok k a (mapGet_mem hg)).1
  have hc : cell c a = some (k, v) := by simp [cell, he]
  refine ⟨{ c with evictList := MoveToFront c.evictList a }, ?_, ?_, ?_, ?_, rfl, rfl, rfl⟩
  · simp [LRU.Get, hg, he]
  · exact
      { size_pos := h.size_pos
        list_nodup := nodup_MoveToFront h.list_nodup
        keys_nodup := h.keys_nodup
        items_ok := fun k' b hb => ⟨mem_MoveToFront.2 (h.items_ok k' b hb).1, (h.items_ok k' b hb).2⟩
        list_ok := fun b hb => h.list_ok b (mem_MoveToFront.1 hb)
        len_eq := by simpa [length_MoveToFront] using h.len_eq }
  · have hcell : ∀ l, cell (LRU.mk c.size l c.items c.onEvict c.heap c.calls) = cell c :=
      fun _ => rfl
    simp only [entries, MoveToFront, ha, if_true, hcell]
    rw [List.filterMap_cons_some hc, List.reverse_cons,
      h.filterMap_erase ha hc (cell c) (fun _ _ _ => rfl), List.filter_reverse]
  · exact length_MoveToFront

/-- Effect of `Add` of a key that is present: the entry moves to the most recent end,
with the new value, nothing else changes and the callback is not called. -/
theorem Inv.Add_hit {c : LRU K V} (h : Inv c) {k : K} (v : V)
    (hk : k ∈ (entries c).map Prod.fst) :
    ∃ c1, c.Add k v = some (c1, false) ∧ Inv c1 ∧
      entries c1 = (entries c).filter (fun p => decide (p.1 ≠ k)) ++ [(k, v)] ∧
      c1.evictList.length = c.evictList.length ∧
      c1.size = c.size ∧ c1.onEvict = c.onEvict ∧ c1.calls = c.calls := by
  obtain ⟨⟨k', v0⟩, hp, rfl⟩ := List.mem_map.1 hk
  obtain ⟨a, hg, he⟩ := (h.mem_entries).1 hp
  have ha : a ∈ c.evictList := (h.items_ok k' a (mapGet_mem hg)).1
  have hc : cell c a = some (k', v0) := by simp [cell, he]
  have hlt : a < c.heap.length := h.addr_lt ha
  refine ⟨{ c with evictList := MoveToFront c.evictList a,
                   heap := c.heap.set a ⟨k', v⟩ }, ?_, ?_, ?_, ?_, rfl, rfl, rfl⟩
  · simp [LRU.Add, hg, he]
  · refine
      { size_pos := h.size_pos
        list_nodup := nodup_MoveToFront h.list_nodup
        keys_nodup := h.keys_nodup
        items_ok := ?_
        list_ok := ?_
        len_eq := by simpa [length_MoveToFront] using h.len_eq }
    · intro k1 b hb
      obtain ⟨hbl, w, hw⟩ := h.items_ok k1 b hb
      refine ⟨mem_MoveToFront.2 hbl, ?_⟩
      by_cases hab : a = b
      · subst hab
        have : k1 = k' := by
          rw [he] at hw
          cases hw
          rfl
        subst this
        exact ⟨v, by simp [List.getElem?_set, hlt]⟩
      · exact ⟨w, by simp [List.getElem?_set, hab, hw]⟩
    · intro b hb
      obtain ⟨e, hw, hm⟩ := h.list_ok b (mem_MoveToFront.1 hb)
      by_cases hab : a = b
      · subst hab
        rw [he] at hw
        cases hw
        exact ⟨⟨k', v⟩, by simp [List.getElem?_set, hlt], hm⟩
      · exact ⟨e, by simp [List.getElem?_set, hab, hw], hm⟩
  · have hca : ∀ l, cell (LRU.mk c.size l c.items c.onEvict (c.heap.set a ⟨k', v⟩) c.calls) a =
        some (k', v) := by
      intro l
      simp [cell, List.getElem?_set, hlt]
    have hcb : ∀ l b, b ∈ c.evictList → b ≠ a →
        cell (LRU.mk c.size l c.items c.onEvict (c.heap.set a ⟨k', v⟩) c.calls) b = cell c b := by
      intro l b _ hba
      simp [cell, List.getElem?_set, Ne.symm hba]
    simp only [entries, MoveToFront, ha, if_true]
    rw [List.filterMap_cons_some (hca _), List.reverse_cons,
      h.filterMap_erase ha hc _ (hcb _), List.filter_reverse]
  · exact length_MoveToFront

end Promote

/-! ## Calls that remove an entry -/

section Removal
variable {K V : Type} [DecidableEq K]

theorem Inv.congr {c c1 : LRU K V} (h : Inv c) (hs : c1.size = c.size)
    (hl : c1.evictList = c.evictList) (hi : c1.items = c.items) (hh : c1.heap = c.heap) :
    Inv c1 := by
  obtain ⟨s1, l1, i1, o1, h1, t1⟩ := c1
  simp only at hs hl hi hh
  subst hs hl hi hh
  exact ⟨h.size_pos, h.list_nodup, h.keys_nodup, h.items_ok, h.list_ok, h.len_eq⟩

theorem entries_congr {c c1 : LRU K V} (hl : c1.evictList = c.evictList)
    (hh : c1.heap = c.heap) : entries c1 = entries c := by
  have : cell c1 = cell c := by
    funext a
    simp [cell, hh]
  simp [entries, this, hl]

theorem fire_size (c : LRU K V) (k : K) (v : V) : (fire c k v).size = c.size := by
  unfold fire; split <;> rfl

theorem fire_evictList (c : LRU K V) (k : K) (v : V) : (fire c k v).evictList = c.evictList := by
  unfold fire; split <;> rfl

theorem fire_items (c : LRU K V) (k : K) (v : V) : (fire c k v).items = c.items := by
  unfold fire; split <;> rfl

theorem fire_heap (c : LRU K V) (k : K) (v : V) : (fire c k v).heap = c.heap := by
  unfold fire; split <;> rfl

theorem fire_onEvict (c : LRU K V) (k : K) (v : V) : (fire c k v).onEvict = c.onEvict := by
  unfold fire; split <;> rfl

theorem fire_calls (c : LRU K V) (k : K) (v : V) :
    (fire c k v).calls =
      c.calls ++ (if c.onEvict then [⟨k, v, c.items, c.evictList⟩] else []) := by
  unfold fire; split <;> simp

/-- With distinct keys, erasing the key of the first entry leaves the rest. -/
theorem filter_head_key {E : List (K × V)} {p : K × V} {rest : List (K × V)}
    (hnd : (E.map Prod.fst).Nodup) (hE : E = p :: rest) :
    E.filter (fun q => decide (q.1 ≠ p.1)) = rest := by
  subst hE
  simp only [List.map_cons, List.nodup_cons] at hnd
  rw [List.filter_cons_of_neg (by simp), List.filter_eq_self]
  intro q hq
  have : q.1 ≠ p.1 := by
    intro heq
    exact hnd.1 (heq ▸ List.mem_map_of_mem Prod.fst hq)
  simpa using this

/-- Effect of `removeElement` on an element of the list: its entry leaves the
cache, then the callback is called with the entry. -/
theorem Inv.removeElement_eq {c : LRU K V} (h : Inv c) {a : Nat} {k : K} {v : V}
    (ha : a ∈ c.evictList) (he : c.heap[a]? = some ⟨k, v⟩) :
    ∃ c1, c.removeElement a = some c1 ∧ Inv c1 ∧
      entries c1 = (entries c).filter (fun p => decide (p.1 ≠ k)) ∧
      c1.evictList.length + 1 = c.evictList.length ∧
      c1.size = c.size ∧ c1.onEvict = c.onEvict ∧ c1.heap = c.heap ∧
      c1.items = mapDelete c.items k ∧ c1.evictList = c.evictList.erase a ∧
      c1.calls = c.calls ++ (if c.onEvict then [⟨k, v, c1.items, c1.evictList⟩] else []) := by
  have hc : cell c a = some (k, v) := by simp [cell, he]
  have hka : (k, a) ∈ c.items := by
    obtain ⟨e, he', hm⟩ := h.list_ok a ha
    rw [he] at he'
    cases he'
    exact hm
  have hinv : Inv (LRU.mk c.size (c.evictList.erase a) (mapDelete c.items k) c.onEvict c.heap
      c.calls) := by
    refine
      { size_pos := h.size_pos
        list_nodup := h.list_nodup.erase a
        keys_nodup := mapDelete_keys_nodup k h.keys_nodup
        items_ok := ?_
        list_ok := ?_
        len_eq := ?_ }
    · intro k' b hb
      obtain ⟨hb1, hb2⟩ := mem_mapDelete.1 hb
      obtain ⟨hbl, w, hw⟩ := h.items_ok k' b hb1
      refine ⟨(h.list_nodup.mem_erase_iff).2 ⟨?_, hbl⟩, w, hw⟩
      rintro rfl
      rw [he] at hw
      cases hw
      exact hb2 rfl
    · intro b hb
      obtain ⟨hba, hbl⟩ := (h.list_nodup.mem_erase_iff).1 hb
      obtain ⟨e, hw, hm⟩ := h.list_ok b hbl
      refine ⟨e, hw, mem_mapDelete.2 ⟨hm, ?_⟩⟩
      intro hk
      simp only at hk
      rw [hk] at hm
      exact hba (h.addr_unique hm hka)
    · have h1 := mapDelete_length h.keys_nodup hka
      have h2 := List.length_erase_of_mem ha
      have h3 := h.len_eq
      have h4 : 0 < c.evictList.length := List.length_pos_of_mem ha
      simp only
      omega
  refine ⟨fire (LRU.mk c.size (c.evictList.erase a) (mapDelete c.items k) c.onEvict c.heap
      c.calls) k v, ?_, ?_, ?_, ?_, ?_, ?_, ?_, ?_, ?_, ?_⟩
  · simp [LRU.removeElement, Remove, he]
  · exact hinv.congr (fire_size _ _ _) (fire_evictList _ _ _) (fire_items _ _ _) (fire_heap _ _ _)
  · rw [entries_congr (fire_evictList _ _ _) (fire_heap _ _ _)]
    have hcell : cell (LRU.mk c.size (c.evictList.erase a) (mapDelete c.items k) c.onEvict c.heap
        c.calls) = cell c := rfl
    simp only [entries, hcell]
    rw [h.filterMap_erase ha hc (cell c) (fun _ _ _ => rfl), List.filter_reverse]
  · rw [fire_evictList]
    have h2 := List.length_erase_of_mem ha
    have h4 : 0 < c.evictList.length := List.length_pos_of_mem ha
    simp only
    omega
  · rw [fire_size]
  · rw [fire_onEvict]
  · rw [fire_heap]
  · rw [fire_items]
  · rw [fire_evictList]
  · rw [fire_calls, fire_items, fire_evictList]

/-- Effect of `Remove` of a key that is present. -/
theorem Inv.Remove_hit {c : LRU K V} (h : Inv c) {k : K} {v : V} (hk : (k, v) ∈ entries c) :
    ∃ c1, c.Remove k = some (c1, true) ∧ Inv c1 ∧
      entries c1 = (entries c).filter (fun p => decide (p.1 ≠ k)) ∧
      c1.evictList.length + 1 = c.evictList.length ∧
      c1.size = c.size ∧ c1.onEvict = c.onEvict ∧
      c1.calls = c.calls ++ (if c.onEvict then [⟨k, v, c1.items, c1.evictList⟩] else []) := by
  obtain ⟨a, hg, he⟩ := (h.mem_entries).1 hk
  have ha : a ∈ c.evictList := (h.items_ok k a (mapGet_mem hg)).1
  obtain ⟨c1, h1, h2, h3, h4, h5, h6, -, -, -, h7⟩ := h.removeElement_eq ha he
  exact ⟨c1, by simp [LRU.Remove, hg, h1], h2, h3, h4, h5, h6, h7⟩

/-- Effect of `RemoveOldest` on a cache that is not empty. -/
theorem Inv.RemoveOldest_cons {c : LRU K V} (h : Inv c) {k : K} {v : V} {E : List (K × V)}
    (hE : entries c = (k, v) :: E) :
    ∃ c1, c.RemoveOldest = some (c1, (some k, some v, true)) ∧ Inv c1 ∧
      entries c1 = E ∧
      c1.evictList.length + 1 = c.evictList.length ∧
      c1.size = c.size ∧ c1.onEvict = c.onEvict ∧
      c1.calls = c.calls ++ (if c.onEvict then [⟨k, v, c1.items, c1.evictList⟩] else []) := by
  cases hb : Back c.evictList with
  | none =>
    rw [(Inv.back_none hb).2] at hE
    cases hE
  | some a =>
    obtain ⟨k', v', he, hh, hsplit⟩ := h.back_eq hb
    rw [hE] at hh
    simp only [List.head?_cons, Option.some.injEq, Prod.mk.injEq] at hh
    obtain ⟨rfl, rfl⟩ := hh
    have ha : a ∈ c.evictList := by
      rw [hsplit]
      simp
    obtain ⟨c1, h1, h2, h3, h4, h5, h6, h7, -, -, h8⟩ := h.removeElement_eq ha he
    refine ⟨c1, ?_, h2, ?_, h4, h5, h6, h8⟩
    · simp [LRU.RemoveOldest, hb, h1, h7, he]
    · rw [h3]
      exact filter_head_key h.entries_keys_nodup hE

/-- Effect of `RemoveOldest` on an empty cache. -/
theorem Inv.RemoveOldest_nil {c : LRU K V} (h : Inv c) (hE : entries c = []) :
    c.RemoveOldest = some (c, (none, none, false)) := by
  unfold LRU.RemoveOldest
  cases hb : Back c.evictList with
  | none => rfl
  | some a =>
    obtain ⟨k', v', he, hh, -⟩ := h.back_eq hb
    rw [hE] at hh
    cases hh

end Removal

/-! ## Insertion of a new key -/

section Insert
variable {K V : Type} [DecidableEq K]

/-- The state of `Add` after a new element is linked and indexed, before the
length is compared with the size. -/
theorem Inv.push {c : LRU K V} (h : Inv c) {k : K} (v : V)
    (hk : k ∉ (entries c).map Prod.fst) :
    Inv (LRU.mk c.size (c.heap.length :: c.evictList) (c.items ++ [(k, c.heap.length)])
      c.onEvict (c.heap ++ [⟨k, v⟩]) c.calls) ∧
    entries (LRU.mk c.size (c.heap.length :: c.evictList) (c.items ++ [(k, c.heap.length)])
      c.onEvict (c.heap ++ [⟨k, v⟩]) c.calls) = entries c ++ [(k, v)] := by
  have hnone := (h.not_mem_entries).1 hk
  have hkn : k ∉ c.items.map Prod.fst := mapGet_eq_none.1 hnone
  have hfresh : c.heap.length ∉ c.evictList := fun hm => lt_irrefl _ (h.addr_lt hm)
  have hold : ∀ b, b ∈ c.evictList → (c.heap ++ [entity.mk k v])[b]? = c.heap[b]? :=
    fun b hb => List.getElem?_append_left (h.addr_lt hb)
  have hnew : (c.heap ++ [entity.mk k v])[c.heap.length]? = some ⟨k, v⟩ := by
    rw [List.getElem?_append_right (le_refl _)]
    simp
  constructor
  · refine
      { size_pos := h.size_pos
        list_nodup := List.nodup_cons.2 ⟨hfresh, h.list_nodup⟩
        keys_nodup := ?_
        items_ok := ?_
        list_ok := ?_
        len_eq := by simp [h.len_eq] }
    · simp only [List.map_append, List.map_cons, List.map_nil]
      refine List.Nodup.append h.keys_nodup (List.nodup_singleton _) ?_
      intro x hx hx'
      rw [List.mem_singleton] at hx'
      exact hkn (hx' ▸ hx)
    · intro k' b hb
      rcases List.mem_append.1 hb with hb | hb
      · obtain ⟨hbl, w, hw⟩ := h.items_ok k' b hb
        exact ⟨List.mem_cons_of_mem _ hbl, w, by simp only; rw [hold b hbl, hw]⟩
      · rw [List.mem_singleton] at hb
        cases hb
        exact ⟨List.mem_cons_self _ _, v, hnew⟩
    · intro b hb
      rcases List.mem_cons.1 hb with hb | hb
      · subst hb
        exact ⟨⟨k, v⟩, hnew, by simp⟩
      · obtain ⟨e, hw, hm⟩ := h.list_ok b hb
        exact ⟨e, by simp only; rw [hold b hb, hw], List.mem_append_left _ hm⟩
  · have hcn : cell (LRU.mk c.size (c.heap.length :: c.evictList)
        (c.items ++ [(k, c.heap.length)]) c.onEvict (c.heap ++ [⟨k, v⟩]) c.calls)
        c.heap.length = some (k, v) := by
      simp only [cell]
      rw [hnew]
      rfl
    have hco : ∀ b, b ∈ c.evictList → cell (LRU.mk c.size (c.heap.length :: c.evictList)
        (c.items ++ [(k, c.heap.length)]) c.onEvict (c.heap ++ [⟨k, v⟩]) c.calls) b =
        cell c b := by
      intro b hb
      simp only [cell]
      rw [hold b hb]
    simp only [entries]
    rw [List.filterMap_cons_some hcn, List.reverse_cons, List.filterMap_congr hco]

theorem Add_miss_unfold {c : LRU K V} {k : K} (v : V) (hg : mapGet c.items k = none) :
    c.Add k v =
      if (c.evictList.length : Int) + 1 > c.size then
        ((LRU.mk c.size (c.heap.length :: c.evictList) (c.items ++ [(k, c.heap.length)])
          c.onEvict (c.heap ++ [⟨k, v⟩]) c.calls).removeOldest).map (fun c3 => (c3, true))
      else
        some (LRU.mk c.size (c.heap.length :: c.evictList) (c.items ++ [(k, c.heap.length)])
          c.onEvict (c.heap ++ [⟨k, v⟩]) c.calls, false) := by
  have hd : mapDelete c.items k = c.items := mapDelete_of_not_mem (mapGet_eq_none.1 hg)
  unfold LRU.Add
  simp only [hg, mapSet, hd, PushFront, List.length_cons, Nat.cast_add, Nat.cast_one]
  by_cases hlt : (c.evictList.length : Int) + 1 > c.size
  · simp [hlt]
  · simp [hlt]

/-- Effect of `Add` of an absent key below capacity: a new most recent entry. -/
theorem Inv.Add_miss_room {c : LRU K V} (h : Inv c) {k : K} (v : V)
    (hk : k ∉ (entries c).map Prod.fst) (hlen : (c.evictList.length : Int) < c.size) :
    ∃ c1, c.Add k v = some (c1, false) ∧ Inv c1 ∧
      entries c1 = entries c ++ [(k, v)] ∧
      c1.evictList.length = c.evictList.length + 1 ∧
      c1.size = c.size ∧ c1.onEvict = c.onEvict ∧ c1.calls = c.calls := by
  obtain ⟨hi, he⟩ := h.push v hk
  refine ⟨_, ?_, hi, he, ?_, rfl, rfl, rfl⟩
  · rw [Add_miss_unfold v ((h.not_mem_entries).1 hk), if_neg (by omega)]
  · simp

/-- Effect of `Add` of an absent key at capacity: the oldest entry leaves, the callback
is called with it, and the new entry is the most recent. -/
theorem Inv.Add_miss_full {c : LRU K V} (h : Inv c) {k : K} (v : V)
    (hk : k ∉ (entries c).map Prod.fst) (hlen : c.size ≤ (c.evictList.length : Int)) :
    ∃ c1 k0 v0 E, entries c = (k0, v0) :: E ∧ c.Add k v = some (c1, true) ∧ Inv c1 ∧
      entries c1 = E ++ [(k, v)] ∧
      c1.evictList.length = c.evictList.length ∧
      c1.size = c.size ∧ c1.onEvict = c.onEvict ∧
      c1.calls = c.calls ++ (if c.onEvict then [⟨k0, v0, c1.items, c1.evictList⟩] else []) := by
  obtain ⟨hi, he⟩ := h.push v hk
  have hpos : 0 < (entries c).length := by
    have := h.size_pos
    rw [h.entries_length]
    omega
  obtain ⟨⟨k0, v0⟩, E, hE⟩ := List.exists_cons_of_length_pos hpos
  rw [hE, List.cons_append] at he
  cases hb : Back (LRU.mk c.size (c.heap.length :: c.evictList)
      (c.items ++ [(k, c.heap.length)]) c.onEvict (c.heap ++ [⟨k, v⟩]) c.calls).evictList with
  | none =>
    have := (Inv.back_none hb).2
    rw [he] at this
    cases this
  | some a =>
    obtain ⟨k', v', hce, hh, hsplit⟩ := hi.back_eq hb
    rw [he] at hh
    simp only [List.head?_cons, Option.some.injEq, Prod.mk.injEq] at hh
    obtain ⟨rfl, rfl⟩ := hh
    have ha : a ∈ (LRU.mk c.size (c.heap.length :: c.evictList)
        (c.items ++ [(k, c.heap.length)]) c.onEvict (c.heap ++ [⟨k, v⟩]) c.calls).evictList := by
      rw [hsplit]
      simp
    obtain ⟨c1, h1, h2, h3, h4, h5, h6, -, -, -, h7⟩ := hi.removeElement_eq ha hce
    refine ⟨c1, k0, v0, E, hE, ?_, h2, ?_, ?_, h5, h6, h7⟩
    · rw [Add_miss_unfold v ((h.not_mem_entries).1 hk), if_pos (by omega)]
      simp [LRU.removeOldest, hb, h1]
    · rw [h3]
      exact filter_head_key hi.entries_keys_nodup he
    · simpa using h4

end Insert

/-! ## Purge -/

section PurgeLemmas
variable {K V : Type} [DecidableEq K]

/-- The loop of `Purge` empties the index and calls the callback once for
each entry it visits. -/
theorem purgeLoop_eq : ∀ (rest : List (K × Nat)) (c : LRU K V), c.items = rest →
    (rest.map Prod.fst).Nodup →
    (∀ k a, (k, a) ∈ rest → ∃ v, c.heap[a]? = some ⟨k, v⟩) →
    ∃ c1, purgeLoop rest c = some c1 ∧ c1.items = [] ∧ c1.evictList = c.evictList ∧
      c1.heap = c.heap ∧ c1.size = c.size ∧ c1.onEvict = c.onEvict ∧
      c1.calls.map (fun x => (x.key, x.value)) =
        c.calls.map (fun x => (x.key, x.value)) ++
          (if c.onEvict then rest.filterMap (fun p => cell c p.2) else []) := by
  intro rest
  induction rest with
  | nil =>
    intro c hi _ _
    exact ⟨c, rfl, hi, rfl, rfl, rfl, rfl, by simp⟩
  | cons p rest ih =>
    obtain ⟨k, a⟩ := p
    intro c hi hnd hheap
    simp only [List.map_cons, List.nodup_cons] at hnd
    have hdel : mapDelete c.items k = rest := by
      rw [hi]
      have := mapDelete_of_not_mem hnd.1
      rw [show mapDelete ((k, a) :: rest) k = mapDelete rest k by simp [mapDelete], this]
    obtain ⟨v, hv⟩ := hheap k a (List.mem_cons_self _ _)
    have hca : cell c a = some (k, v) := by simp [cell, hv]
    by_cases hon : c.onEvict = true
    · obtain ⟨c1, h1, h2, h3, h4, h5, h6, h7⟩ :=
        ih (LRU.mk (fire c k v).size (fire c k v).evictList (mapDelete c.items k)
          (fire c k v).onEvict (fire c k v).heap (fire c k v).calls) hdel hnd.2
          (fun k' b hb => by
            simp only [fire_heap]
            exact hheap k' b (List.mem_cons_of_mem _ hb))
      refine ⟨c1, ?_, h2, ?_, ?_, ?_, ?_, ?_⟩
      · rw [purgeLoop, if_pos hon]
        simp only [hv]
        exact h1
      · rw [h3]; exact fire_evictList _ _ _
      · rw [h4]; exact fire_heap _ _ _
      · rw [h5]; exact fire_size _ _ _
      · rw [h6]; exact fire_onEvict _ _ _
      · rw [h7]
        have hcell : cell (LRU.mk (fire c k v).size (fire c k v).evictList (mapDelete c.items k)
            (fire c k v).onEvict (fire c k v).heap (fire c k v).calls) = cell c := by
          funext b
          simp [cell, fire_heap]
        have hfm : List.filterMap (fun p : K × Nat => cell c p.2) ((k, a) :: rest) =
            (k, v) :: List.filterMap (fun p : K × Nat => cell c p.2) rest := by
          simp [List.filterMap_cons, hca]
        rw [hcell, hfm]
        simp only [fire_onEvict, fire_calls, hon, if_true, List.map_append, List.map_cons,
          List.map_nil, List.append_assoc, List.singleton_append]
    · obtain ⟨c1, h1, h2, h3, h4, h5, h6, h7⟩ :=
        ih (LRU.mk c.size c.evictList (mapDelete c.items k) c.onEvict c.heap c.calls) hdel hnd.2
          (fun k' b hb => hheap k' b (List.mem_cons_of_mem _ hb))
      refine ⟨c1, ?_, h2, h3, h4, h5, h6, ?_⟩
      · rw [purgeLoop, if_neg hon]
        exact h1
      · rw [h7]
        simp [hon]

/-- Effect of `Purge`: the cache is empty afterwards. -/
theorem Inv.Purge_eq {c : LRU K V} (h : Inv c) :
    ∃ c1, c.Purge = some (c1, ()) ∧ Inv c1 ∧ entries c1 = [] ∧
      c1.evictList = [] ∧ c1.items = [] ∧ c1.size = c.size ∧ c1.onEvict = c.onEvict ∧
      c1.calls.map (fun x => (x.key, x.value)) =
        c.calls.map (fun x => (x.key, x.value)) ++
          (if c.onEvict then c.items.filterMap (fun p => cell c p.2) else []) := by
  obtain ⟨c1, h1, h2, -, -, h5, h6, h7⟩ :=
    purgeLoop_eq c.items c rfl h.keys_nodup (fun k a hm => (h.items_ok k a hm).2)
  refine ⟨LRU.mk c1.size [] c1.items c1.onEvict c1.heap c1.calls, ?_, ?_, ?_, rfl, h2, h5, h6, h7⟩
  · simp [LRU.Purge, h1]
  · exact
      { size_pos := by simpa [h5] using h.size_pos
        list_nodup := List.nodup_nil
        keys_nodup := by simp [h2]
        items_ok := by simp [h2]
        list_ok := by simp
        len_eq := by simp [h2] }
  · simp [entries]

end PurgeLemmas

/-! ## Reachable caches -/

section Reach
variable {K V : Type} [DecidableEq K]

theorem NewLRU_ok {size : Int} {onEvict : Bool} {c : LRU K V}
    (h : NewLRU size onEvict = .ok c) :
    0 < size ∧ c = LRU.mk size [] [] onEvict [] [] := by
  unfold NewLRU at h
  split at h
  · cases h
  · next hs =>
    injection h with h
    exact ⟨by omega, h.symm⟩

theorem WF.new {size : Int} {onEvict : Bool} {c : LRU K V}
    (h : NewLRU size onEvict = .ok c) : WF c := by
  obtain ⟨hs, rfl⟩ := NewLRU_ok h
  exact
    { inv :=
        { size_pos := hs
          list_nodup := List.nodup_nil
          keys_nodup := by simp
          items_ok := by simp
          list_ok := by simp
          len_eq := rfl }
      len_le := by simpa using hs.le }

theorem exists_value_of_mem_keys {E : List (K × V)} {k : K}
    (h : k ∈ E.map Prod.fst) : ∃ v, (k, v) ∈ E := by
  obtain ⟨⟨k', v⟩, hp, rfl⟩ := List.mem_map.1 h
  exact ⟨v, hp⟩

/-- Every public call returns on a well-formed cache and leaves it well-formed,
with the same capacity and the same callback. -/
theorem WF.apply {c : LRU K V} (h : WF c) (op : Op K V) :
    ∃ c1, op.apply c = some c1 ∧ WF c1 ∧ c1.size = c.size ∧ c1.onEvict = c.onEvict := by
  have hi := h.inv
  have hle := h.len_le
  cases op with
  | add k v =>
    by_cases hk : k ∈ (entries c).map Prod.fst
    · obtain ⟨c1, h1, h2, -, h4, h5, h6, -⟩ := hi.Add_hit v hk
      exact ⟨c1, by simp [Op.apply, h1], ⟨h2, by rw [h4, h5]; exact hle⟩, h5, h6⟩
    · by_cases hlen : (c.evictList.length : Int) < c.size
      · obtain ⟨c1, h1, h2, -, h4, h5, h6, -⟩ := hi.Add_miss_room v hk hlen
        exact ⟨c1, by simp [Op.apply, h1], ⟨h2, by rw [h4, h5]; push_cast; omega⟩, h5, h6⟩
      · obtain ⟨c1, k0, v0, E, -, h1, h2, -, h4, h5, h6, -⟩ :=
          hi.Add_miss_full v hk (by omega)
        exact ⟨c1, by simp [Op.apply, h1], ⟨h2, by rw [h4, h5]; exact hle⟩, h5, h6⟩
  | get k =>
    by_cases hk : k ∈ (entries c).map Prod.fst
    · obtain ⟨v, hv⟩ := exists_value_of_mem_keys hk
      obtain ⟨c1, h1, h2, -, h4, h5, h6, -⟩ := hi.Get_hit hv
      exact ⟨c1, by simp [Op.apply, h1], ⟨h2, by rw [h4, h5]; exact hle⟩, h5, h6⟩
    · exact ⟨c, by simp [Op.apply, hi.Get_miss hk], h, rfl, rfl⟩
  | peek k =>
    by_cases hk : k ∈ (entries c).map Prod.fst
    · obtain ⟨v, hv⟩ := exists_value_of_mem_keys hk
      exact ⟨c, by simp [Op.apply, hi.Peek_hit hv], h, rfl, rfl⟩
    · exact ⟨c, by simp [Op.apply, hi.Peek_miss hk], h, rfl, rfl⟩
  | contains k => exact ⟨c, by simp [Op.apply, LRU.Contains], h, rfl, rfl⟩
  | remove k =>
    by_cases hk : k ∈ (entries c).map Prod.fst
    · obtain ⟨v, hv⟩ := exists_value_of_mem_keys hk
      obtain ⟨c1, h1, h2, -, h4, h5, h6, -⟩ := hi.Remove_hit hv
      exact ⟨c1, by simp [Op.apply, h1], ⟨h2, by rw [h5]; omega⟩, h5, h6⟩
    · exact ⟨c, by simp [Op.apply, hi.Remove_miss hk], h, rfl, rfl⟩
  | removeOldest =>
    cases hE : entries c with
    | nil => exact ⟨c, by simp [Op.apply, hi.RemoveOldest_nil hE], h, rfl, rfl⟩
    | cons p E =>
      obtain ⟨k, v⟩ := p
      obtain ⟨c1, h1, h2, -, h4, h5, h6, -⟩ := hi.RemoveOldest_cons hE
      exact ⟨c1, by simp [Op.apply, h1], ⟨h2, by rw [h5]; omega⟩, h5, h6⟩
  | getOldest =>
    cases hE : entries c with
    | nil => exact ⟨c, by simp [Op.apply, hi.GetOldest_nil hE], h, rfl, rfl⟩
    | cons p E =>
      obtain ⟨k, v⟩ := p
      exact ⟨c, by simp [Op.apply, hi.GetOldest_cons hE], h, rfl, rfl⟩
  | keys => exact ⟨c, by simp [Op.apply, hi.Keys_eq], h, rfl, rfl⟩
  | len => exact ⟨c, by simp [Op.apply, LRU.Len], h, rfl, rfl⟩
  | purge =>
    obtain ⟨c1, h1, h2, -, h4, -, h5, h6, -⟩ := hi.Purge_eq
    exact ⟨c1, by simp [Op.apply, h1], ⟨h2, by rw [h4, h5]; simpa using hi.size_pos.le⟩, h5, h6⟩

/-- Every sequence of public calls returns on a well-formed cache. -/
theorem WF.run {c : LRU K V} (h : WF c) (ops : List (Op K V)) :
    ∃ c1, run ops c = some c1 ∧ WF c1 ∧ c1.size = c.size ∧ c1.onEvict = c.onEvict := by
  induction ops generalizing c with
  | nil => exact ⟨c, rfl, h, rfl, rfl⟩
  | cons op ops ih =>
    obtain ⟨c1, h1, h2, h3, h4⟩ := h.apply op
    obtain ⟨c2, h5, h6, h7, h8⟩ := ih h2
    exact ⟨c2, by simp [simplelru.run, h1, h5], h6, by rw [h7, h3], by rw [h8, h4]⟩

/-- Every reachable cache is well-formed. -/
theorem Reachable.wf {c : LRU K V} (h : Reachable c) : WF c := by
  induction h with
  | new size onEvict c hnew => exact WF.new hnew
  | step c c1 op _ hstep ih =>
    obtain ⟨c2, h1, h2, -, -⟩ := ih.apply op
    rw [hstep] at h1
    cases h1
    exact h2

end Reach

/-! ## What a client observes -/

section Obs
variable {K V : Type} [DecidableEq K]

/-- A key that has the same entry in two caches is peeked alike in both. -/
theorem Inv.Peek_congr {c c1 : LRU K V} (h : Inv c) (h1 : Inv c1) {k : K}
    (hmem : ∀ w, (k, w) ∈ entries c1 ↔ (k, w) ∈ entries c) :
    (c1.Peek k).map Prod.snd = (c.Peek k).map Prod.snd := by
  by_cases hk : k ∈ (entries c).map Prod.fst
  · obtain ⟨w, hw⟩ := exists_value_of_mem_keys hk
    rw [h.Peek_hit hw, h1.Peek_hit ((hmem w).2 hw)]
    rfl
  · have hk1 : k ∉ (entries c1).map Prod.fst := by
      intro hk1
      obtain ⟨w, hw⟩ := exists_value_of_mem_keys hk1
      exact hk (List.mem_map_of_mem Prod.fst ((hmem w).1 hw))
    rw [h.Peek_miss hk, h1.Peek_miss hk1]
    rfl

theorem Inv.Contains_true {c : LRU K V} (h : Inv c) {k : K} :
    c.Contains k = some (c, true) ↔ k ∈ (entries c).map Prod.fst := by
  rw [h.Contains_eq]
  simp

theorem Inv.Contains_false {c : LRU K V} (h : Inv c) {k : K} :
    c.Contains k = some (c, false) ↔ k ∉ (entries c).map Prod.fst := by
  rw [h.Contains_eq]
  simp

theorem Len_inj {c : LRU K V} {n : Int} :
    c.Len = some (c, n) ↔ n = (c.evictList.length : Int) := by
  simp [LRU.Len, eq_comm]

/-- With distinct keys, moving the entry of a key to the end permutes the
entries. -/
theorem perm_filter_key {E : List (K × V)} {k : K} {v : V}
    (hnd : (E.map Prod.fst).Nodup) (hmem : (k, v) ∈ E) :
    (E.filter (fun p => decide (p.1 ≠ k)) ++ [(k, v)]).Perm E := by
  induction E with
  | nil => simp at hmem
  | cons p E ih =>
    simp only [List.map_cons, List.nodup_cons] at hnd
    by_cases hp : p.1 = k
    · have hpe : p = (k, v) := by
        rcases List.mem_cons.1 hmem with h | h
        · exact h.symm
        · exact absurd (List.mem_map.2 ⟨(k, v), h, hp.symm⟩) hnd.1
      subst hpe
      have hrest : E.filter (fun p => decide (p.1 ≠ k)) = E := by
        rw [List.filter_eq_self]
        intro q hq
        have : q.1 ≠ k := fun h => hnd.1 (List.mem_map.2 ⟨q, hq, h⟩)
        simpa using this
      rw [List.filter_cons_of_neg (by simp), hrest]
      exact List.perm_append_singleton _ _
    · have hmem1 : (k, v) ∈ E := by
        rcases List.mem_cons.1 hmem with h | h
        · exact absurd (by rw [← h]) hp
        · exact h
      rw [List.filter_cons_of_pos (by simpa using hp), List.cons_append]
      exact (ih hnd.2 hmem1).cons p

theorem Len_zero_iff {c : LRU K V} (h : Inv c) : c.Len = some (c, 0) ↔ entries c = [] := by
  rw [Len_inj, ← List.length_eq_zero, h.entries_length]
  omega

end Obs

/-- The example cache is reachable: `NewLRU(2, cb)`, `Add(1, 10)`, `Add(2, 20)`. -/
theorem exFull_reachable : Reachable exFull :=
  Reachable.step _ _ (Op.add 2 20)
    (Reachable.step _ _ (Op.add 1 10) (Reachable.new 2 true _ rfl) rfl) rfl

/-! ## The contract of the cache -/

section Claims
variable {K V : Type} [DecidableEq K]

/-- C1 (capacity bound): for every size > 0, every cache obtained from
`NewLRU size cb` and every finite sequence of public calls applied to it, the
sequence runs to its end and `Len()` is then at most `size`.  Since the
sequence is arbitrary, the bound holds after each call. -/
theorem capacity_bound (size : Int) (onEvict : Bool) (hsize : 0 < size) :
    ∃ c0 : LRU K V, NewLRU size onEvict = .ok c0 ∧
      ∀ ops : List (Op K V), ∃ c n, run ops c0 = some c ∧ c.Len = some (c, n) ∧ n ≤ size := by
  have hnew : NewLRU size onEvict = .ok (LRU.mk size [] [] onEvict [] [] : LRU K V) := by
    simp [NewLRU, not_le.2 hsize]
  refine ⟨_, hnew, fun ops => ?_⟩
  obtain ⟨c, h1, h2, h3, -⟩ := (WF.new hnew).run ops
  have h4 : c.size = size := h3
  exact ⟨c, _, h1, rfl, by rw [← h4]; exact h2.len_le⟩

/-- Eviction by `Add`, for the reading `c.onEvict(entity.key, entity.value)` of
line 146, which is not the line as written (the value handed to the callback
comes from that reading): on a reachable cache with `Len() == size`, `Add`
of a key that is not in the cache returns true and removes exactly the entry
that `GetOldest()` reported, the first key of `Keys()`: the keys afterwards are
the former keys without the first, followed by the new key, and every other key
keeps its value.  A callback that was supplied is called exactly once, with the
key and value of the removed entry, after the entry left both structures;
without a callback nothing is called. -/
theorem eviction_correctness (c : LRU K V) (k : K) (v : V) (hr : Reachable c)
    (hfull : c.Len = some (c, c.size)) (hk : c.Contains k = some (c, false)) :
    ∃ c1 k0 v0 ks,
      c.GetOldest = some (c, (some k0, some v0, true)) ∧
      c.Keys = some (c, some k0 :: ks) ∧
      c.Add k v = some (c1, true) ∧
      c1.Keys = some (c1, ks ++ [some k]) ∧
      c1.Contains k0 = some (c1, false) ∧
      c1.Peek k = some (c1, (some v, true)) ∧
      (∀ k1, k1 ≠ k0 → k1 ≠ k → (c1.Peek k1).map Prod.snd = (c.Peek k1).map Prod.snd) ∧
      (c.onEvict = true → c1.calls = c.calls ++ [⟨k0, v0, c1.items, c1.evictList⟩]) ∧
      (c.onEvict = false → c1.calls = c.calls) := by
  have hw := hr.wf
  have hi := hw.inv
  have hk1 := hi.Contains_false.1 hk
  have hlen := Len_inj.1 hfull
  obtain ⟨c1, k0, v0, E, hE, h1, h2, h3, -, -, -, h7⟩ := hi.Add_miss_full v hk1 (by omega)
  have hnd := hi.entries_keys_nodup
  rw [hE, List.map_cons, List.nodup_cons] at hnd
  have hne : k0 ≠ k := by
    rintro rfl
    exact hk1 (by rw [hE]; simp)
  refine ⟨c1, k0, v0, E.map (fun p => some p.1), hi.GetOldest_cons hE, ?_, h1, ?_, ?_, ?_, ?_, ?_, ?_⟩
  · rw [hi.Keys_eq, hE]
    rfl
  · rw [h2.Keys_eq, h3]
    simp
  · rw [h2.Contains_false, h3]
    simp only [List.map_append, List.map_cons, List.map_nil, List.mem_append, List.mem_singleton,
      not_or]
    exact ⟨hnd.1, hne⟩
  · exact h2.Peek_hit (by rw [h3]; simp)
  · intro k1 hk0 hkk
    apply hi.Peek_congr h2
    intro w
    rw [h3, hE]
    simp [hk0, hkk]
  · intro hon
    rw [h7, hon]
    rfl
  · intro hon
    rw [h7, hon]
    simp

/-- C3 (recency ordering): on a reachable cache, `Add k v` returns for any key
and `Get k` returns; after `Add k v`, and after a `Get k` whose `ok` is true,
`k` is in the cache and is the last element of `Keys()`, which lists the keys
from oldest to newest. -/
theorem recency_ordering (c : LRU K V) (k : K) (hr : Reachable c) :
    (∀ v, ∃ c1 r ks, c.Add k v = some (c1, r) ∧ c1.Contains k = some (c1, true) ∧
        c1.Keys = some (c1, ks) ∧ ks.getLast? = some (some k)) ∧
    (∃ c1 val ok, c.Get k = some (c1, (val, ok)) ∧
      (ok = true → c1.Contains k = some (c1, true) ∧
        ∃ ks, c1.Keys = some (c1, ks) ∧ ks.getLast? = some (some k))) := by
  have hw := hr.wf
  have hi := hw.inv
  have key : ∀ (c1 : LRU K V) (E : List (K × V)) (w : V), Inv c1 → entries c1 = E ++ [(k, w)] →
      c1.Contains k = some (c1, true) ∧
        ∃ ks, c1.Keys = some (c1, ks) ∧ ks.getLast? = some (some k) := by
    intro c1 E w h1 hE
    refine ⟨h1.Contains_true.2 (by rw [hE]; simp), _, h1.Keys_eq, ?_⟩
    rw [hE]
    simp
  constructor
  · intro v
    by_cases hk : k ∈ (entries c).map Prod.fst
    · obtain ⟨c1, h1, h2, h3, -⟩ := hi.Add_hit v hk
      obtain ⟨h4, ks, h5, h6⟩ := key c1 _ v h2 h3
      exact ⟨c1, false, ks, h1, h4, h5, h6⟩
    · by_cases hlen : (c.evictList.length : Int) < c.size
      · obtain ⟨c1, h1, h2, h3, -⟩ := hi.Add_miss_room v hk hlen
        obtain ⟨h4, ks, h5, h6⟩ := key c1 _ v h2 h3
        exact ⟨c1, false, ks, h1, h4, h5, h6⟩
      · obtain ⟨c1, k0, v0, E, -, h1, h2, h3, -⟩ := hi.Add_miss_full v hk (by omega)
        obtain ⟨h4, ks, h5, h6⟩ := key c1 _ v h2 h3
        exact ⟨c1, true, ks, h1, h4, h5, h6⟩
  · by_cases hk : k ∈ (entries c).map Prod.fst
    · obtain ⟨w, hw⟩ := exists_value_of_mem_keys hk
      obtain ⟨c1, h1, h2, h3, -⟩ := hi.Get_hit hw
      exact ⟨c1, some w, true, h1, fun _ => key c1 _ w h2 h3⟩
    · exact ⟨c, none, false, hi.Get_miss hk, fun h => by cases h⟩

/-- C4 (update in place): on a reachable cache that contains `k`, full or not,
`Add k v2` returns false, leaves `Len()` unchanged, leaves every key present
or absent as it was, does not call the callback, and a `Get k` afterwards
returns `(v2, true)`. -/
theorem update_in_place (c : LRU K V) (k : K) (v2 : V) (hr : Reachable c)
    (hk : c.Contains k = some (c, true)) :
    ∃ c1 c2 n, c.Add k v2 = some (c1, false) ∧
      c.Len = some (c, n) ∧ c1.Len = some (c1, n) ∧
      (∀ k1 b, c1.Contains k1 = some (c1, b) ↔ c.Contains k1 = some (c, b)) ∧
      c1.calls = c.calls ∧
      c1.Get k = some (c2, (some v2, true)) := by
  have hi := hr.wf.inv
  have hk1 := hi.Contains_true.1 hk
  obtain ⟨c1, h1, h2, h3, h4, -, -, h7⟩ := hi.Add_hit v2 hk1
  obtain ⟨c2, h8, -⟩ := h2.Get_hit (show (k, v2) ∈ entries c1 by rw [h3]; simp)
  refine ⟨c1, c2, _, h1, rfl, by simp [LRU.Len, h4], ?_, h7, h8⟩
  intro k1 b
  have hmem : k1 ∈ (entries c1).map Prod.fst ↔ k1 ∈ (entries c).map Prod.fst := by
    rw [h3]
    simp only [List.map_append, List.map_cons, List.map_nil, List.mem_append, List.mem_map,
      List.mem_filter, List.mem_singleton, decide_eq_true_eq]
    constructor
    · rintro (⟨p, ⟨hp, -⟩, rfl⟩ | rfl)
      · exact ⟨p, hp, rfl⟩
      · exact List.mem_map.1 hk1
    · rintro ⟨p, hp, rfl⟩
      by_cases hpk : p.1 = k
      · exact Or.inr hpk
      · exact Or.inl ⟨p, ⟨hp, hpk⟩, rfl⟩
  cases b with
  | true => rw [h2.Contains_true, hi.Contains_true, hmem]
  | false => rw [h2.Contains_false, hi.Contains_false, hmem]

/-- Peek and Contains do not promote, for the reading `_, ok = c.items[key]` of
line 79, which is not the line as written (what `Contains` returns comes from
that reading; `Peek` is as written): on a reachable cache, `Peek k` and
`Contains k` return the cache exactly as it was (entries, values, recency
order and callback trace), so any following call, an overflowing `Add`
included, behaves as if they had not happened; `Contains k` is true exactly
when `k` is a key of the cache, `Peek k` returns `(v, true)` with the stored
value when `k` is present and `(nil, false)` otherwise. -/
theorem peek_contains_no_promotion (c : LRU K V) (k : K) (hr : Reachable c) :
    (∃ r, c.Peek k = some (c, r)) ∧
    (∃ b, c.Contains k = some (c, b)) ∧
    (∀ c1 r, c.Peek k = some (c1, r) → ∀ k1 v1, c1.Add k1 v1 = c.Add k1 v1) ∧
    (∀ c1 b, c.Contains k = some (c1, b) → ∀ k1 v1, c1.Add k1 v1 = c.Add k1 v1) ∧
    (c.Contains k = some (c, true) ↔ k ∈ (entries c).map Prod.fst) ∧
    (c.Contains k = some (c, true) ↔ ∃ ks, c.Keys = some (c, ks) ∧ some k ∈ ks) ∧
    (∀ v, (k, v) ∈ entries c → c.Peek k = some (c, (some v, true))) ∧
    (k ∉ (entries c).map Prod.fst → c.Peek k = some (c, (none, false))) := by
  have hi := hr.wf.inv
  have hpeek : ∃ r, c.Peek k = some (c, r) := by
    by_cases hk : k ∈ (entries c).map Prod.fst
    · obtain ⟨w, hw⟩ := exists_value_of_mem_keys hk
      exact ⟨_, hi.Peek_hit hw⟩
    · exact ⟨_, hi.Peek_miss hk⟩
  refine ⟨hpeek, ⟨_, rfl⟩, ?_, ?_, hi.Contains_true, ?_, fun v hv => hi.Peek_hit hv,
    fun hk => hi.Peek_miss hk⟩
  · intro c1 r h1
    obtain ⟨r0, h0⟩ := hpeek
    rw [h0] at h1
    cases h1
    intro _ _
    rfl
  · intro c1 b h1
    simp only [LRU.Contains, Option.some.injEq, Prod.mk.injEq] at h1
    rw [← h1.1]
    intro _ _
    rfl
  · rw [hi.Contains_true, hi.Keys_eq]
    constructor
    · intro hk
      refine ⟨_, rfl, ?_⟩
      obtain ⟨p, hp, rfl⟩ := List.mem_map.1 hk
      exact List.mem_map.2 ⟨p, hp, rfl⟩
    · rintro ⟨ks, hks, hk⟩
      simp only [Option.some.injEq, Prod.mk.injEq, true_and] at hks
      subst hks
      obtain ⟨p, hp, hpk⟩ := List.mem_map.1 hk
      exact List.mem_map.2 ⟨p, hp, Option.some.inj hpk⟩

/-- C6 (result of Get): on a reachable cache, `Get k` returns `(v, true)` with
`v` the value stored for `k` when `k` is in the cache, and `(nil, false)` when
it is not; on a miss the cache is returned unchanged; on a hit the entries
after the call are the entries before it in another order (none added, none
removed, no value changed) and `Len()` is the same; the callback is never
called. -/
theorem get_result (c : LRU K V) (k : K) (hr : Reachable c) :
    (∀ v, c.Peek k = some (c, (some v, true)) →
      ∃ c1 n, c.Get k = some (c1, (some v, true)) ∧
        (entries c1).Perm (entries c) ∧
        (∀ k1, (c1.Peek k1).map Prod.snd = (c.Peek k1).map Prod.snd) ∧
        c.Len = some (c, n) ∧ c1.Len = some (c1, n) ∧
        c1.calls = c.calls) ∧
    (c.Contains k = some (c, true) → ∃ v, c.Peek k = some (c, (some v, true))) ∧
    (c.Contains k = some (c, false) → c.Get k = some (c, (none, false))) := by
  have hi := hr.wf.inv
  refine ⟨?_, ?_, fun hk => hi.Get_miss (hi.Contains_false.1 hk)⟩
  · intro v hv
    have hmem : (k, v) ∈ entries c := by
      by_cases hk : k ∈ (entries c).map Prod.fst
      · obtain ⟨w, hw⟩ := exists_value_of_mem_keys hk
        rw [hi.Peek_hit hw] at hv
        simp only [Option.some.injEq, Prod.mk.injEq, and_true, true_and] at hv
        exact hv ▸ hw
      · rw [hi.Peek_miss hk] at hv
        simp at hv
    obtain ⟨c1, h1, h2, h3, h4, -, -, h7⟩ := hi.Get_hit hmem
    have hfilter := perm_filter_key hi.entries_keys_nodup hmem
    refine ⟨c1, _, h1, by rw [h3]; exact hfilter, ?_, rfl, by simp [LRU.Len, h4], h7⟩
    intro k1
    apply hi.Peek_congr h2
    intro w
    rw [h3]
    exact hfilter.mem_iff
  · intro hk
    obtain ⟨w, hw⟩ := exists_value_of_mem_keys (hi.Contains_true.1 hk)
    exact ⟨w, hi.Peek_hit hw⟩

/-- C7 (return value of Add): on a reachable cache, `Add k v` returns true
exactly when `k` was absent and `Len()` was equal to the size; when `k` was
absent and `Len()` was below the size it returns false, `Len()` grows by one
and the callback is not called; when it returns true `Len()` is unchanged and
equal to the size. -/
theorem add_return_value (c : LRU K V) (k : K) (v : V) (hr : Reachable c) :
    ∃ c1 r n n1, c.Add k v = some (c1, r) ∧ c.Len = some (c, n) ∧ c1.Len = some (c1, n1) ∧
      (r = true ↔ (c.Contains k = some (c, false) ∧ n = c.size)) ∧
      (c.Contains k = some (c, false) → n < c.size →
        r = false ∧ n1 = n + 1 ∧ c1.calls = c.calls) ∧
      (r = true → n1 = n ∧ n1 = c.size) := by
  have hw := hr.wf
  have hi := hw.inv
  have hle := hw.len_le
  by_cases hk : k ∈ (entries c).map Prod.fst
  · obtain ⟨c1, h1, -, -, h4, -, -, h7⟩ := hi.Add_hit v hk
    have hc : c.Contains k ≠ some (c, false) := fun h => (hi.Contains_false.1 h) hk
    refine ⟨c1, false, _, _, h1, rfl, rfl, ?_, ?_, ?_⟩
    · simp [hc]
    · intro h
      exact absurd h hc
    · intro h
      cases h
  · have hc : c.Contains k = some (c, false) := hi.Contains_false.2 hk
    by_cases hlen : (c.evictList.length : Int) < c.size
    · obtain ⟨c1, h1, -, -, h4, -, -, h7⟩ := hi.Add_miss_room v hk hlen
      refine ⟨c1, false, _, _, h1, rfl, rfl, ?_, ?_, ?_⟩
      · simp only [Bool.false_eq_true, false_iff, not_and]
        intro _
        omega
      · intro _ _
        exact ⟨rfl, by rw [h4]; push_cast; rfl, h7⟩
      · intro h
        cases h
    · obtain ⟨c1, k0, v0, E, -, h1, -, -, h4, -, -, -⟩ := hi.Add_miss_full v hk (by omega)
      refine ⟨c1, true, _, _, h1, rfl, rfl, ?_, ?_, ?_⟩
      · simp only [true_iff]
        exact ⟨hc, by omega⟩
      · intro _ h
        exact absurd h hlen
      · intro _
        rw [h4]
        exact ⟨rfl, by omega⟩

/-- Effect of `Remove`, for the reading `c.onEvict(entity.key, entity.value)` of
line 146, which is not the line as written (the value handed to the callback
comes from that reading): on a reachable cache, `Remove k` returns true exactly
when `k` was in the cache.  When it returns true, `Contains k` is false afterwards,
`Len()` is one less, and a callback that was supplied is called exactly once,
with `k` and the value that was stored for `k` (without a callback nothing is
called); when it returns false the cache is unchanged. -/
theorem remove_spec (c : LRU K V) (k : K) (hr : Reachable c) :
    ∃ c1 r n, c.Remove k = some (c1, r) ∧ c.Len = some (c, n) ∧
      (r = true ↔ c.Contains k = some (c, true)) ∧
      (r = true →
        c1.Contains k = some (c1, false) ∧ c1.Len = some (c1, n - 1) ∧
        ∃ v, c.Peek k = some (c, (some v, true)) ∧
          (c.onEvict = true → c1.calls = c.calls ++ [⟨k, v, c1.items, c1.evictList⟩]) ∧
          (c.onEvict = false → c1.calls = c.calls)) ∧
      (r = false → c1 = c) := by
  have hi := hr.wf.inv
  by_cases hk : k ∈ (entries c).map Prod.fst
  · obtain ⟨v, hv⟩ := exists_value_of_mem_keys hk
    obtain ⟨c1, h1, h2, h3, h4, -, -, h7⟩ := hi.Remove_hit hv
    refine ⟨c1, true, _, h1, rfl, ?_, ?_, ?_⟩
    · simp [hi.Contains_true, hk]
    · intro _
      refine ⟨?_, ?_, v, hi.Peek_hit hv, ?_, ?_⟩
      · rw [h2.Contains_false, h3]
        simp
      · simp only [LRU.Len, Option.some.injEq, Prod.mk.injEq, true_and]
        omega
      · intro hon
        rw [h7, hon]
        rfl
      · intro hon
        rw [h7, hon]
        simp
    · intro h
      cases h
  · refine ⟨c, false, _, hi.Remove_miss hk, rfl, ?_, ?_, fun _ => rfl⟩
    · simp [hi.Contains_true, hk]
    · intro h
      cases h

/-- Effect of `RemoveOldest`, for the reading
`c.onEvict(entity.key, entity.value)` of line 146, which is not the line as
written (the value handed to the callback comes from that reading): on a
reachable cache that is not empty, `RemoveOldest()`
returns `(k, v, true)` where `k` is the first element of `Keys()` before the
call and `v` its stored value; afterwards `k` is not in the cache, `Len()` is
one less, the other keys are listed in the same order and keep their values,
and a callback that was supplied is called exactly once, with `(k, v)`
(without a callback nothing is called).  On an empty cache it returns
`(nil, nil, false)` and the cache is unchanged. -/
theorem removeOldest_spec (c : LRU K V) (hr : Reachable c) :
    (c.Len = some (c, 0) → c.RemoveOldest = some (c, (none, none, false))) ∧
    (c.Len ≠ some (c, 0) →
      ∃ c1 k v ks n, c.RemoveOldest = some (c1, (some k, some v, true)) ∧
        c.Keys = some (c, some k :: ks) ∧ c.Peek k = some (c, (some v, true)) ∧
        c1.Contains k = some (c1, false) ∧
        c.Len = some (c, n + 1) ∧ c1.Len = some (c1, n) ∧
        c1.Keys = some (c1, ks) ∧
        (∀ k1, k1 ≠ k → (c1.Peek k1).map Prod.snd = (c.Peek k1).map Prod.snd) ∧
        (c.onEvict = true → c1.calls = c.calls ++ [⟨k, v, c1.items, c1.evictList⟩]) ∧
        (c.onEvict = false → c1.calls = c.calls)) := by
  have hi := hr.wf.inv
  constructor
  · intro h0
    exact hi.RemoveOldest_nil ((Len_zero_iff hi).1 h0)
  · intro h0
    cases hE : entries c with
    | nil => exact absurd ((Len_zero_iff hi).2 hE) h0
    | cons p E =>
      obtain ⟨k, v⟩ := p
      obtain ⟨c1, h1, h2, h3, h4, -, -, h7⟩ := hi.RemoveOldest_cons hE
      have hnd := hi.entries_keys_nodup
      rw [hE, List.map_cons, List.nodup_cons] at hnd
      refine ⟨c1, k, v, E.map (fun p => some p.1), c1.evictList.length, h1, ?_, ?_, ?_, ?_, rfl,
        ?_, ?_, ?_, ?_⟩
      · rw [hi.Keys_eq, hE]
        rfl
      · exact hi.Peek_hit (by rw [hE]; simp)
      · rw [h2.Contains_false, h3]
        exact hnd.1
      · simp only [LRU.Len, Option.some.injEq, Prod.mk.injEq, true_and]
        omega
      · rw [h2.Keys_eq, h3]
      · intro k1 hk1
        apply hi.Peek_congr h2
        intro w
        rw [h3, hE]
        simp [hk1]
      · intro hon
        rw [h7, hon]
        rfl
      · intro hon
        rw [h7, hon]
        simp

/-- C10 (GetOldest): on a reachable cache, `GetOldest()` returns the cache
unchanged (so the callback is not called); its result is `(nil, nil, false)`
exactly when `Len() == 0`, and otherwise `(k, v, true)` where `k` is the first
element of `Keys()` and `v` the value `Peek k` returns; a `RemoveOldest()`
that follows returns the same result. -/
theorem getOldest_spec (c : LRU K V) (hr : Reachable c) :
    ∃ r, c.GetOldest = some (c, r) ∧
      (r = (none, none, false) ↔ c.Len = some (c, 0)) ∧
      (c.Len ≠ some (c, 0) →
        ∃ k v ks, r = (some k, some v, true) ∧ c.Keys = some (c, some k :: ks) ∧
          c.Peek k = some (c, (some v, true))) ∧
      (∃ c1, c.RemoveOldest = some (c1, r)) := by
  have hi := hr.wf.inv
  cases hE : entries c with
  | nil =>
    have h0 := (Len_zero_iff hi).2 hE
    exact ⟨_, hi.GetOldest_nil hE, by simp [h0], fun h => absurd h0 h,
      c, hi.RemoveOldest_nil hE⟩
  | cons p E =>
    obtain ⟨k, v⟩ := p
    have h0 : c.Len ≠ some (c, 0) := by
      intro h
      rw [(Len_zero_iff hi).1 h] at hE
      cases hE
    obtain ⟨c1, h1, -⟩ := hi.RemoveOldest_cons hE
    refine ⟨_, hi.GetOldest_cons hE, by simp [h0], fun _ => ⟨k, v, E.map (fun p => some p.1), rfl,
      ?_, ?_⟩, c1, h1⟩
    · rw [hi.Keys_eq, hE]
      rfl
    · exact hi.Peek_hit (by rw [hE]; simp)

end Claims

/-! ## The contract on an example cache -/

/-- Witness of C1: size 2 with a callback. -/
theorem capacity_bound_witness :
    (0 : Int) < 2 ∧
    ∃ c0 : LRU Nat Nat, NewLRU 2 true = .ok c0 ∧
      ∀ ops : List (Op Nat Nat), ∃ c n, run ops c0 = some c ∧ c.Len = some (c, n) ∧ n ≤ 2 :=
  ⟨by decide, capacity_bound 2 true (by decide)⟩

/-- Example of the eviction theorem: `Add(3, 30)` on the cache after `NewLRU(2, cb)`, `Add(1, 10)`, `Add(2, 20)`. -/
theorem eviction_correctness_witness :
    Reachable exFull ∧ exFull.Len = some (exFull, exFull.size) ∧
    exFull.Contains 3 = some (exFull, false) ∧
    ∃ c1 k0 v0 ks,
      exFull.GetOldest = some (exFull, (some k0, some v0, true)) ∧
      exFull.Keys = some (exFull, some k0 :: ks) ∧
      exFull.Add 3 30 = some (c1, true) ∧
      c1.Keys = some (c1, ks ++ [some 3]) ∧
      c1.Contains k0 = some (c1, false) ∧
      c1.Peek 3 = some (c1, (some 30, true)) ∧
      (∀ k1, k1 ≠ k0 → k1 ≠ 3 → (c1.Peek k1).map Prod.snd = (exFull.Peek k1).map Prod.snd) ∧
      (exFull.onEvict = true → c1.calls = exFull.calls ++ [⟨k0, v0, c1.items, c1.evictList⟩]) ∧
      (exFull.onEvict = false → c1.calls = exFull.calls) :=
  ⟨exFull_reachable, rfl, rfl, eviction_correctness exFull 3 30 exFull_reachable rfl rfl⟩

/-- Witness of C3: key 3 on the cache after `NewLRU(2, cb)`, `Add(1, 10)`, `Add(2, 20)`. -/
theorem recency_ordering_witness :
    Reachable exFull ∧
    ((∀ v, ∃ c1 r ks, exFull.Add 3 v = some (c1, r) ∧ c1.Contains 3 = some (c1, true) ∧
        c1.Keys = some (c1, ks) ∧ ks.getLast? = some (some 3)) ∧
    (∃ c1 val ok, exFull.Get 3 = some (c1, (val, ok)) ∧
      (ok = true → c1.Contains 3 = some (c1, true) ∧
        ∃ ks, c1.Keys = some (c1, ks) ∧ ks.getLast? = some (some 3)))) :=
  ⟨exFull_reachable, recency_ordering exFull 3 exFull_reachable⟩

/-- Witness of C4: `Add(1, 11)` on the cache after `NewLRU(2, cb)`, `Add(1, 10)`, `Add(2, 20)`. -/
theorem update_in_place_witness :
    Reachable exFull ∧ exFull.Contains 1 = some (exFull, true) ∧
    ∃ c1 c2 n, exFull.Add 1 11 = some (c1, false) ∧
      exFull.Len = some (exFull, n) ∧ c1.Len = some (c1, n) ∧
      (∀ k1 b, c1.Contains k1 = some (c1, b) ↔ exFull.Contains k1 = some (exFull, b)) ∧
      c1.calls = exFull.calls ∧
      c1.Get 1 = some (c2, (some 11, true)) :=
  ⟨exFull_reachable, rfl, update_in_place exFull 1 11 exFull_reachable rfl⟩

/-- Example of the theorem on Peek and Contains: key 1 on the cache after `NewLRU(2, cb)`, `Add(1, 10)`, `Add(2, 20)`. -/
theorem peek_contains_no_promotion_witness :
    Reachable exFull ∧
    ((∃ r, exFull.Peek 1 = some (exFull, r)) ∧
    (∃ b, exFull.Contains 1 = some (exFull, b)) ∧
    (∀ c1 r, exFull.Peek 1 = some (c1, r) → ∀ k1 v1, c1.Add k1 v1 = exFull.Add k1 v1) ∧
    (∀ c1 b, exFull.Contains 1 = some (c1, b) → ∀ k1 v1, c1.Add k1 v1 = exFull.Add k1 v1) ∧
    (exFull.Contains 1 = some (exFull, true) ↔ 1 ∈ (entries exFull).map Prod.fst) ∧
    (exFull.Contains 1 = some (exFull, true) ↔
      ∃ ks, exFull.Keys = some (exFull, ks) ∧ some 1 ∈ ks) ∧
    (∀ v, (1, v) ∈ entries exFull → exFull.Peek 1 = some (exFull, (some v, true))) ∧
    (1 ∉ (entries exFull).map Prod.fst → exFull.Peek 1 = some (exFull, (none, false)))) :=
  ⟨exFull_reachable, peek_contains_no_promotion exFull 1 exFull_reachable⟩

/-- Witness of C6: `Get(1)` on the cache after `NewLRU(2, cb)`, `Add(1, 10)`, `Add(2, 20)`. -/
theorem get_result_witness :
    Reachable exFull ∧
    ((∀ v, exFull.Peek 1 = some (exFull, (some v, true)) →
      ∃ c1 n, exFull.Get 1 = some (c1, (some v, true)) ∧
        (entries c1).Perm (entries exFull) ∧
        (∀ k1, (c1.Peek k1).map Prod.snd = (exFull.Peek k1).map Prod.snd) ∧
        exFull.Len = some (exFull, n) ∧ c1.Len = some (c1, n) ∧
        c1.calls = exFull.calls) ∧
    (exFull.Contains 1 = some (exFull, true) →
      ∃ v, exFull.Peek 1 = some (exFull, (some v, true))) ∧
    (exFull.Contains 1 = some (exFull, false) → exFull.Get 1 = some (exFull, (none, false)))) :=
  ⟨exFull_reachable, get_result exFull 1 exFull_reachable⟩

/-- Witness of C7: `Add(3, 30)` on the cache after `NewLRU(2, cb)`, `Add(1, 10)`, `Add(2, 20)`. -/
theorem add_return_value_witness :
    Reachable exFull ∧
    ∃ c1 r n n1, exFull.Add 3 30 = some (c1, r) ∧ exFull.Len = some (exFull, n) ∧
      c1.Len = some (c1, n1) ∧
      (r = true ↔ (exFull.Contains 3 = some (exFull, false) ∧ n = exFull.size)) ∧
      (exFull.Contains 3 = some (exFull, false) → n < exFull.size →
        r = false ∧ n1 = n + 1 ∧ c1.calls = exFull.calls) ∧
      (r = true → n1 = n ∧ n1 = exFull.size) :=
  ⟨exFull_reachable, add_return_value exFull 3 30 exFull_reachable⟩

/-- Example of the theorem on Remove: `Remove(2)` on the cache after `NewLRU(2, cb)`, `Add(1, 10)`, `Add(2, 20)`. -/
theorem remove_spec_witness :
    Reachable exFull ∧
    ∃ c1 r n, exFull.Remove 2 = some (c1, r) ∧ exFull.Len = some (exFull, n) ∧
      (r = true ↔ exFull.Contains 2 = some (exFull, true)) ∧
      (r = true →
        c1.Contains 2 = some (c1, false) ∧ c1.Len = some (c1, n - 1) ∧
        ∃ v, exFull.Peek 2 = some (exFull, (some v, true)) ∧
          (exFull.onEvict = true →
            c1.calls = exFull.calls ++ [⟨2, v, c1.items, c1.evictList⟩]) ∧
          (exFull.onEvict = false → c1.calls = exFull.calls)) ∧
      (r = false → c1 = exFull) :=
  ⟨exFull_reachable, remove_spec exFull 2 exFull_reachable⟩

/-- Example of the theorem on RemoveOldest: `RemoveOldest()` on the cache after `NewLRU(2, cb)`, `Add(1, 10)`, `Add(2, 20)`. -/
theorem removeOldest_spec_witness :
    Reachable exFull ∧
    ((exFull.Len = some (exFull, 0) → exFull.RemoveOldest = some (exFull, (none, none, false))) ∧
    (exFull.Len ≠ some (exFull, 0) →
      ∃ c1 k v ks n, exFull.RemoveOldest = some (c1, (some k, some v, true)) ∧
        exFull.Keys = some (exFull, some k :: ks) ∧
        exFull.Peek k = some (exFull, (some v, true)) ∧
        c1.Contains k = some (c1, false) ∧
        exFull.Len = some (exFull, n + 1) ∧ c1.Len = some (c1, n) ∧
        c1.Keys = some (c1, ks) ∧
        (∀ k1, k1 ≠ k → (c1.Peek k1).map Prod.snd = (exFull.Peek k1).map Prod.snd) ∧
        (exFull.onEvict = true →
          c1.calls = exFull.calls ++ [⟨k, v, c1.items, c1.evictList⟩]) ∧
        (exFull.onEvict = false → c1.calls = exFull.calls))) :=
  ⟨exFull_reachable, removeOldest_spec exFull exFull_reachable⟩

/-- Witness of C10: `GetOldest()` on the cache after `NewLRU(2, cb)`, `Add(1, 10)`, `Add(2, 20)`. -/
theorem getOldest_spec_witness :
    Reachable exFull ∧
    ∃ r, exFull.GetOldest = some (exFull, r) ∧
      (r = (none, none, false) ↔ exFull.Len = some (exFull, 0)) ∧
      (exFull.Len ≠ some (exFull, 0) →
        ∃ k v ks, r = (some k, some v, true) ∧ exFull.Keys = some (exFull, some k :: ks) ∧
          exFull.Peek k = some (exFull, (some v, true))) ∧
      (∃ c1, exFull.RemoveOldest = some (c1, r)) :=
  ⟨exFull_reachable, getOldest_spec exFull exFull_reachable⟩

/-! ## The contents of a cache as a sequence -/

section SpecLemmas
variable {K V : Type} [DecidableEq K]

/-- With distinct keys, filtering a key out is erasing its entry. -/
theorem filter_eq_specErase {E : List (K × V)} (k : K) (hnd : (E.map Prod.fst).Nodup) :
    E.filter (fun p => decide (p.1 ≠ k)) = specErase E k := by
  induction E with
  | nil => rfl
  | cons p E ih =>
    simp only [List.map_cons, List.nodup_cons] at hnd
    by_cases hp : p.1 = k
    · have hrest : E.filter (fun p => decide (p.1 ≠ k)) = E := by
        rw [List.filter_eq_self]
        intro q hq
        have : q.1 ≠ k := fun h => hnd.1 (List.mem_map.2 ⟨q, hq, h.trans hp.symm⟩)
        simpa using this
      rw [List.filter_cons_of_neg (by simpa using hp), hrest]
      simp [specErase, hp]
    · rw [List.filter_cons_of_pos (by simpa using hp), ih hnd.2]
      simp [specErase, hp]

theorem specLookup_of_mem {E : List (K × V)} {k : K} {v : V}
    (hnd : (E.map Prod.fst).Nodup) (hmem : (k, v) ∈ E) : specLookup E k = some v := by
  induction E with
  | nil => simp at hmem
  | cons p E ih =>
    simp only [List.map_cons, List.nodup_cons] at hnd
    rcases List.mem_cons.1 hmem with h | h
    · subst h
      simp [specLookup]
    · have hp : p.1 ≠ k := fun hp => hnd.1 (List.mem_map.2 ⟨(k, v), h, hp.symm⟩)
      simp [specLookup, hp, ih hnd.2 h]

theorem specLookup_of_not_mem {E : List (K × V)} {k : K}
    (hk : k ∉ E.map Prod.fst) : specLookup E k = none := by
  induction E with
  | nil => rfl
  | cons p E ih =>
    simp only [List.map_cons, List.mem_cons, not_or] at hk
    simp [specLookup, Ne.symm hk.1, ih hk.2]

theorem specErase_sublist (E : List (K × V)) (k : K) : (specErase E k).Sublist E := by
  induction E with
  | nil => exact List.Sublist.refl _
  | cons p E ih =>
    by_cases hp : p.1 = k
    · simp only [specErase, hp, if_true]
      exact List.sublist_cons_self _ _
    · simp only [specErase, hp, if_false]
      exact ih.cons₂ p

end SpecLemmas

/-! ## The trace of Purge -/

section PurgeCalls
variable {K V : Type} [DecidableEq K]

/-- The records the loop of `Purge` appends to the trace: each call is made
while its key is still in the index, pointing to an element that is still in
the list. -/
theorem purgeLoop_calls : ∀ (rest : List (K × Nat)) (c : LRU K V), c.items = rest →
    (rest.map Prod.fst).Nodup →
    (∀ k a, (k, a) ∈ rest → a ∈ c.evictList ∧ ∃ v, c.heap[a]? = some ⟨k, v⟩) →
    ∃ c1 new, purgeLoop rest c = some c1 ∧ c1.calls = c.calls ++ new ∧
      (c.onEvict = false → new = []) ∧
      (c.onEvict = true → new.map Call.args = rest.filterMap (fun p => cell c p.2)) ∧
      ∀ x, x ∈ new → x.evictList = c.evictList ∧
        ∃ a, mapGet x.items x.key = some a ∧ a ∈ x.evictList ∧
          c.heap[a]? = some ⟨x.key, x.value⟩ := by
  intro rest
  induction rest with
  | nil =>
    intro c _ _ _
    exact ⟨c, [], rfl, by simp, fun _ => rfl, fun _ => rfl, by simp⟩
  | cons p rest ih =>
    obtain ⟨k, a⟩ := p
    intro c hi hnd hheap
    simp only [List.map_cons, List.nodup_cons] at hnd
    have hdel : mapDelete c.items k = rest := by
      rw [hi]
      have := mapDelete_of_not_mem hnd.1
      rw [show mapDelete ((k, a) :: rest) k = mapDelete rest k by simp [mapDelete], this]
    obtain ⟨hal, v, hv⟩ := hheap k a (List.mem_cons_self _ _)
    have hca : cell c a = some (k, v) := by simp [cell, hv]
    by_cases hon : c.onEvict = true
    · have hfire : fire c k v = LRU.mk c.size c.evictList c.items c.onEvict c.heap
          (c.calls ++ [⟨k, v, c.items, c.evictList⟩]) := by
        simp [fire, hon]
      obtain ⟨c1, new, h1, h2, -, h4, h5⟩ :=
        ih (LRU.mk c.size c.evictList (mapDelete c.items k) c.onEvict c.heap
          (c.calls ++ [⟨k, v, c.items, c.evictList⟩])) hdel hnd.2
          (fun k1 b hb => hheap k1 b (List.mem_cons_of_mem _ hb))
      refine ⟨c1, ⟨k, v, c.items, c.evictList⟩ :: new, ?_, ?_, ?_, ?_, ?_⟩
      · rw [purgeLoop, if_pos hon]
        simp only [hv, hfire]
        exact h1
      · rw [h2]
        simp
      · intro hoff
        rw [hon] at hoff
        cases hoff
      · intro _
        have hfm : List.filterMap (fun p : K × Nat => cell c p.2) ((k, a) :: rest) =
            (k, v) :: List.filterMap (fun p : K × Nat => cell c p.2) rest := by
          simp [List.filterMap_cons, hca]
        have hcell : cell (LRU.mk c.size c.evictList (mapDelete c.items k) c.onEvict c.heap
            (c.calls ++ [⟨k, v, c.items, c.evictList⟩])) = cell c := rfl
        rw [hfm, List.map_cons, h4 hon, hcell]
        rfl
      · intro x hx
        rcases List.mem_cons.1 hx with hx | hx
        · subst hx
          refine ⟨rfl, a, ?_, hal, hv⟩
          simp [hi, mapGet]
        · exact h5 x hx
    · obtain ⟨c1, new, h1, h2, h3, -, h5⟩ :=
        ih (LRU.mk c.size c.evictList (mapDelete c.items k) c.onEvict c.heap c.calls) hdel hnd.2
          (fun k1 b hb => hheap k1 b (List.mem_cons_of_mem _ hb))
      have hoff : c.onEvict = false := by simpa using hon
      have hnew : new = [] := h3 hoff
      refine ⟨c1, new, ?_, h2, fun _ => hnew, fun h => absurd h hon, ?_⟩
      · rw [purgeLoop, if_neg hon]
        exact h1
      · intro x hx
        rw [hnew] at hx
        cases hx

/-- The elements the index points to are the elements of the list. -/
theorem Inv.items_perm {c : LRU K V} (h : Inv c) :
    (c.items.map Prod.snd).Perm c.evictList := by
  have hnd : (c.items.map Prod.snd).Nodup := by
    have hitems : c.items.Nodup := List.Nodup.of_map _ h.keys_nodup
    refine List.Nodup.map_on ?_ hitems
    intro p hp q hq hpq
    obtain ⟨k1, a⟩ := p
    obtain ⟨k2, b⟩ := q
    simp only at hpq
    subst hpq
    obtain ⟨-, v1, hv1⟩ := h.items_ok k1 a hp
    obtain ⟨-, v2, hv2⟩ := h.items_ok k2 a hq
    rw [hv1] at hv2
    cases hv2
    rfl
  refine (List.perm_ext_iff_of_nodup hnd h.list_nodup).2 ?_
  intro a
  constructor
  · intro ha
    obtain ⟨⟨k, b⟩, hp, rfl⟩ := List.mem_map.1 ha
    exact (h.items_ok k b hp).1
  · intro ha
    obtain ⟨e, -, hm⟩ := h.list_ok a ha
    exact List.mem_map.2 ⟨(e.key, a), hm, rfl⟩

/-- Visiting the index yields the entries of the cache, in some order. -/
theorem Inv.items_entries_perm {c : LRU K V} (h : Inv c) :
    (c.items.filterMap (fun p => cell c p.2)).Perm (entries c) := by
  have h1 : c.items.filterMap (fun p => cell c p.2) =
      (c.items.map Prod.snd).filterMap (cell c) := by
    rw [List.filterMap_map]
    rfl
  rw [h1]
  unfold entries
  exact ((h.items_perm).filterMap (cell c)).trans (List.reverse_perm _).symm

/-- Effect of `Purge` on the trace: one call for each entry of the cache, each
made before the entry is detached. -/
theorem Inv.Purge_calls {c : LRU K V} (h : Inv c) :
    ∃ c1 new, c.Purge = some (c1, ()) ∧ c1.calls = c.calls ++ new ∧
      (c.onEvict = false → new = []) ∧
      (c.onEvict = true → (new.map Call.args).Perm (entries c)) ∧
      ∀ x, x ∈ new → x.evictList = c.evictList ∧
        ∃ a, mapGet x.items x.key = some a ∧ a ∈ x.evictList ∧
          c1.heap[a]? = some ⟨x.key, x.value⟩ := by
  obtain ⟨c1, new, h1, h2, h3, h4, h5⟩ :=
    purgeLoop_calls c.items c rfl h.keys_nodup (fun k a hm => h.items_ok k a hm)
  obtain ⟨c2, g1, -, -, g4, -, -, -⟩ :=
    purgeLoop_eq c.items c rfl h.keys_nodup (fun k a hm => (h.items_ok k a hm).2)
  rw [h1] at g1
  cases g1
  refine ⟨LRU.mk c1.size [] c1.items c1.onEvict c1.heap c1.calls, new, ?_, h2, h3, ?_, ?_⟩
  · simp [LRU.Purge, h1]
  · intro hon
    rw [h4 hon]
    exact h.items_entries_perm
  · intro x hx
    obtain ⟨hx1, a, hx2, hx3, hx4⟩ := h5 x hx
    exact ⟨hx1, a, hx2, hx3, by simp only; rw [g4]; exact hx4⟩

end PurgeCalls

/-! ## Keys, Purge and construction -/

section Claims5
variable {K V : Type} [DecidableEq K]

/-- Result of `Keys`, for the reading `keys` of `kes` and `ent.Value` of
`entity.Value` in lines 120 to 127, which are not the lines as written (what
`Keys` returns comes from that reading): on a reachable cache, `Keys()`
returns the cache unchanged and
a sequence of length `Len()` with no empty slot that lists every key of the
cache exactly once (`k` occurs in it exactly when `Contains k`), from the back
of the recency list (least recently used) to its front (most recently used). -/
theorem keys_spec (c : LRU K V) (hr : Reachable c) :
    ∃ ks n, c.Keys = some (c, ks) ∧ c.Len = some (c, n) ∧ (ks.length : Int) = n ∧
      ks.Nodup ∧ (∀ x, x ∈ ks → x ≠ none) ∧
      (∀ k, some k ∈ ks ↔ c.Contains k = some (c, true)) ∧
      ks = (entries c).map (fun p => some p.1) ∧
      ks.reverse = c.evictList.filterMap (fun a => (c.heap[a]?).map (fun e => some e.key)) ∧
      (∀ k v, c.GetOldest = some (c, (some k, some v, true)) → ks.head? = some (some k)) := by
  have hi := hr.wf.inv
  refine ⟨_, _, hi.Keys_eq, rfl, ?_, ?_, ?_, ?_, rfl, ?_, ?_⟩
  · simp [hi.entries_length]
  · have hnd := hi.entries_keys_nodup
    have : (entries c).map (fun p => some p.1) = ((entries c).map Prod.fst).map some := by
      simp [List.map_map, Function.comp_def]
    rw [this]
    exact hnd.map (Option.some_injective K)
  · intro x hx
    obtain ⟨p, -, rfl⟩ := List.mem_map.1 hx
    simp
  · intro k
    rw [hi.Contains_true]
    constructor
    · intro hk
      obtain ⟨p, hp, hpk⟩ := List.mem_map.1 hk
      exact List.mem_map.2 ⟨p, hp, Option.some.inj hpk⟩
    · intro hk
      obtain ⟨p, hp, rfl⟩ := List.mem_map.1 hk
      exact List.mem_map.2 ⟨p, hp, rfl⟩
  · simp [entries, cell, List.map_filterMap, Function.comp_def]
  · intro k v hg
    cases hE : entries c with
    | nil =>
      rw [hi.GetOldest_nil hE] at hg
      simp at hg
    | cons p E =>
      obtain ⟨k0, v0⟩ := p
      rw [hi.GetOldest_cons hE] at hg
      simp only [Option.some.injEq, Prod.mk.injEq, and_true, true_and] at hg
      simp [hg.1]

/-- C12 (Purge is complete): on a reachable cache, `Purge()` returns; then
`Len() == 0`, `Keys()` is empty and `Contains k` is false for every `k`; a
callback that was supplied was called exactly once for each entry that was in
the cache, with its key and stored value, and for nothing else (without a
callback nothing is called); the size is unchanged and the cache is still a
reachable, usable cache. -/
theorem purge_complete (c : LRU K V) (hr : Reachable c) :
    ∃ c1 new, c.Purge = some (c1, ()) ∧
      c1.Len = some (c1, 0) ∧ c1.Keys = some (c1, []) ∧
      (∀ k, c1.Contains k = some (c1, false)) ∧
      c1.calls = c.calls ++ new ∧
      (c.onEvict = true → (new.map Call.args).Perm (entries c)) ∧
      (c.onEvict = false → new = []) ∧
      c1.size = c.size ∧ Reachable c1 ∧
      (∀ k v, ∃ c2, c1.Add k v = some (c2, false) ∧ c2.Peek k = some (c2, (some v, true))) := by
  have hw := hr.wf
  have hi := hw.inv
  obtain ⟨c1, new, h1, h2, h3, h4, -⟩ := hi.Purge_calls
  obtain ⟨c2, g1, g2, g3, g4, -, g6, -⟩ := hi.Purge_eq
  rw [h1] at g1
  simp only [Option.some.injEq, Prod.mk.injEq, and_true] at g1
  subst g1
  have hreach : Reachable c1 := Reachable.step c c1 Op.purge hr (by simp [Op.apply, h1])
  refine ⟨c1, new, h1, ?_, ?_, ?_, h2, h4, h3, g6, hreach, ?_⟩
  · simp [LRU.Len, g4]
  · rw [g2.Keys_eq, g3]
    rfl
  · intro k
    rw [g2.Contains_false, g3]
    simp
  · intro k v
    have hk : k ∉ (entries c1).map Prod.fst := by simp [g3]
    have hlen : (c1.evictList.length : Int) < c1.size := by
      rw [g4]
      exact g2.size_pos
    obtain ⟨c2, f1, f2, f3, -⟩ := g2.Add_miss_room v hk hlen
    exact ⟨c2, f1, f2.Peek_hit (by rw [f3]; simp)⟩

/-- C13 (construction): `NewLRU size onEvict` returns an error, and so no
cache, exactly when `size <= 0`; for every `size > 0` it returns an empty cache
(`Len() == 0`, `Keys()` empty, `GetOldest()` reports false) whose capacity is
`size`. -/
theorem construction (size : Int) (onEvict : Bool) :
    ((∃ msg, (NewLRU size onEvict : Except String (LRU K V)) = .error msg) ↔ size ≤ 0) ∧
    ((∃ c, (NewLRU size onEvict : Except String (LRU K V)) = .ok c) ↔ 0 < size) ∧
    (∀ c : LRU K V, NewLRU size onEvict = .ok c →
      c.Len = some (c, 0) ∧ c.Keys = some (c, []) ∧
      c.GetOldest = some (c, (none, none, false)) ∧ c.size = size ∧ c.calls = []) := by
  refine ⟨?_, ?_, ?_⟩
  · constructor
    · rintro ⟨msg, h⟩
      by_contra hs
      simp [NewLRU, hs] at h
    · intro hs
      exact ⟨"Must provide a positive size", by simp [NewLRU, hs]⟩
  · constructor
    · rintro ⟨c, h⟩
      exact (NewLRU_ok h).1
    · intro hs
      exact ⟨LRU.mk size [] [] onEvict [] [], by simp [NewLRU, not_le.2 hs]⟩
  · intro c h
    obtain ⟨-, rfl⟩ := NewLRU_ok h
    exact ⟨rfl, rfl, rfl, rfl, rfl⟩

end Claims5

/-! ## The scenarios of the specification -/

/-- Scenario with capacity 2, for the readings of line 146 and of lines 120 to
127 named at `LRU.removeElement` and `LRU.Keys`, which are not the lines as
written (the value the callback receives and the result of `Keys` come from
these readings): from `NewLRU(2, cb)`, `Add(1,"a")` and
`Add(2,"b")` return false and give `Len() == 2`; `Get(1)` returns `("a", true)`;
then `Add(3,"c")` returns true, the callback has been called exactly once in
the whole run, with `(2,"b")`, and `Keys() == [1, 3]`. -/
theorem scenario_capacity_two :
    ∃ c0 c1 c2 c3 c4 : LRU Nat String,
      NewLRU 2 true = .ok c0 ∧
      c0.Add 1 "a" = some (c1, false) ∧
      c1.Add 2 "b" = some (c2, false) ∧
      c2.Len = some (c2, 2) ∧
      c2.Get 1 = some (c3, (some "a", true)) ∧
      c3.calls = [] ∧
      c3.Add 3 "c" = some (c4, true) ∧
      c4.calls.map Call.args = [(2, "b")] ∧
      c4.Keys = some (c4, [some 1, some 3]) :=
  ⟨⟨2, [], [], true, [], []⟩,
   ⟨2, [0], [(1, 0)], true, [⟨1, "a"⟩], []⟩,
   ⟨2, [1, 0], [(1, 0), (2, 1)], true, [⟨1, "a"⟩, ⟨2, "b"⟩], []⟩,
   ⟨2, [0, 1], [(1, 0), (2, 1)], true, [⟨1, "a"⟩, ⟨2, "b"⟩], []⟩,
   ⟨2, [2, 0], [(1, 0), (3, 2)], true, [⟨1, "a"⟩, ⟨2, "b"⟩, ⟨3, "c"⟩],
     [⟨2, "b", [(1, 0), (3, 2)], [2, 0]⟩]⟩,
   rfl, rfl, rfl, rfl, rfl, rfl, rfl, rfl, rfl⟩

/-- Scenario with capacity 1, for the reading of line 146 named at
`LRU.removeElement`, which is not the line as written (the value the callback
receives comes from that reading): from `NewLRU(1, cb)`, `Add(1,"a")` returns
false; `Add(1,"b")` returns false without a callback call and `Get(1)` is
`("b", true)`; then `Add(2,"c")` returns true and the callback receives
`(1,"b")`; afterwards `Get(1)` reports `ok == false` and `Get(2)` is
`("c", true)`. -/
theorem scenario_capacity_one :
    ∃ c0 c1 c2 c3 c4 c5 c6 : LRU Nat String,
      NewLRU 1 true = .ok c0 ∧
      c0.Add 1 "a" = some (c1, false) ∧
      c1.Add 1 "b" = some (c2, false) ∧
      c2.calls = [] ∧
      c2.Get 1 = some (c3, (some "b", true)) ∧
      c3.Add 2 "c" = some (c4, true) ∧
      c4.calls.map Call.args = [(1, "b")] ∧
      c4.Get 1 = some (c5, (none, false)) ∧
      c5.Get 2 = some (c6, (some "c", true)) :=
  ⟨⟨1, [], [], true, [], []⟩,
   ⟨1, [0], [(1, 0)], true, [⟨1, "a"⟩], []⟩,
   ⟨1, [0], [(1, 0)], true, [⟨1, "b"⟩], []⟩,
   ⟨1, [0], [(1, 0)], true, [⟨1, "b"⟩], []⟩,
   ⟨1, [1], [(2, 1)], true, [⟨1, "b"⟩, ⟨2, "c"⟩], [⟨1, "b", [(2, 1)], [1]⟩]⟩,
   ⟨1, [1], [(2, 1)], true, [⟨1, "b"⟩, ⟨2, "c"⟩], [⟨1, "b", [(2, 1)], [1]⟩]⟩,
   ⟨1, [1], [(2, 1)], true, [⟨1, "b"⟩, ⟨2, "c"⟩], [⟨1, "b", [(2, 1)], [1]⟩]⟩,
   rfl, rfl, rfl, rfl, rfl, rfl, rfl, rfl, rfl⟩

/-! ## Agreement of the structures and timing of the callback -/

section Claims6
variable {K V : Type} [DecidableEq K]

/-- A key that is not a key of the cache is in neither structure. -/
theorem Inv.detached {c : LRU K V} (h : Inv c) {k : K} (hk : k ∉ (entries c).map Prod.fst) :
    mapGet c.items k = none ∧ ∀ a, a ∈ c.evictList → ∀ e, c.heap[a]? = some e → e.key ≠ k := by
  refine ⟨(h.not_mem_entries).1 hk, ?_⟩
  intro a ha e he hek
  apply hk
  have : (e.key, e.value) ∈ entries c := mem_entries_iff.2 ⟨a, ha, by simp [cell, he]⟩
  exact List.mem_map.2 ⟨_, this, hek⟩

/-- A single call recorded after the entry left both structures. -/
theorem Inv.detached_calls {c1 : LRU K V} (h : Inv c1) {k : K} (v : V) (b : Bool)
    (hk : k ∉ (entries c1).map Prod.fst) :
    ∀ x, x ∈ (if b then [Call.mk k v c1.items c1.evictList] else []) →
      x.items = c1.items ∧ x.evictList = c1.evictList ∧ mapGet x.items x.key = none ∧
        ∀ a, a ∈ x.evictList → ∀ e, c1.heap[a]? = some e → e.key ≠ x.key := by
  intro x hx
  cases b with
  | false => simp at hx
  | true =>
    simp only [if_true, List.mem_singleton] at hx
    subst hx
    exact ⟨rfl, rfl, (h.detached hk).1, (h.detached hk).2⟩

/-- C16 (index and list agree): on every reachable cache the key index and the
recency list have the same length; every key of the index maps to an element
that is in the list and whose entity holds that key; every element of the list
holds a key that the index maps to that very element; no key occurs twice in
the list, and no element twice. -/
theorem index_list_agreement (c : LRU K V) (hr : Reachable c) :
    c.items.length = c.evictList.length ∧
    (∀ k a, mapGet c.items k = some a →
      a ∈ c.evictList ∧ ∃ e, c.heap[a]? = some e ∧ e.key = k) ∧
    (∀ a, a ∈ c.evictList → ∃ e, c.heap[a]? = some e ∧ mapGet c.items e.key = some a) ∧
    (c.evictList.filterMap (fun a => (c.heap[a]?).map (fun e => e.key))).Nodup ∧
    c.evictList.Nodup ∧ (c.items.map Prod.fst).Nodup := by
  have hi := hr.wf.inv
  refine ⟨hi.len_eq, ?_, ?_, ?_, hi.list_nodup, hi.keys_nodup⟩
  · intro k a hg
    obtain ⟨ha, v, hv⟩ := hi.items_ok k a (mapGet_mem hg)
    exact ⟨ha, _, hv, rfl⟩
  · intro a ha
    obtain ⟨e, he, hm⟩ := hi.list_ok a ha
    exact ⟨e, he, mapGet_of_mem hi.keys_nodup hm⟩
  · have hnd := hi.entries_keys_nodup
    unfold entries at hnd
    rw [List.map_reverse, List.nodup_reverse, List.map_filterMap] at hnd
    have hfun : (fun a => Option.map Prod.fst (cell c a)) =
        (fun a => (c.heap[a]?).map (fun e => e.key)) := by
      funext a
      simp [cell, Function.comp_def]
    rw [hfun] at hnd
    exact hnd

/-- C17, as amended (callback timing): on a reachable cache every public call
returns; in every call other than `Purge` (overflow eviction in `Add`,
`Remove`, `RemoveOldest`) each callback invocation happens when the key is no
longer in the key index and no element of the recency list holds it; in
`Purge` each callback invocation happens while the key is still in the key
index and its element is still in the recency list. -/
theorem callback_timing (c : LRU K V) (op : Op K V) (hr : Reachable c) :
    ∃ c1 new, op.apply c = some c1 ∧ c1.calls = c.calls ++ new ∧
      (op ≠ Op.purge → ∀ x, x ∈ new →
        x.items = c1.items ∧ x.evictList = c1.evictList ∧ mapGet x.items x.key = none ∧
          ∀ a, a ∈ x.evictList → ∀ e, c1.heap[a]? = some e → e.key ≠ x.key) ∧
      (op = Op.purge → ∀ x, x ∈ new →
        x.evictList = c.evictList ∧
          ∃ a, mapGet x.items x.key = some a ∧ a ∈ x.evictList ∧
            c1.heap[a]? = some ⟨x.key, x.value⟩) := by
  have hw := hr.wf
  have hi := hw.inv
  have quiet : ∀ c1 : LRU K V, op.apply c = some c1 → c1.calls = c.calls → op ≠ Op.purge →
      ∃ c1 new, op.apply c = some c1 ∧ c1.calls = c.calls ++ new ∧
      (op ≠ Op.purge → ∀ x, x ∈ new →
        x.items = c1.items ∧ x.evictList = c1.evictList ∧ mapGet x.items x.key = none ∧
          ∀ a, a ∈ x.evictList → ∀ e, c1.heap[a]? = some e → e.key ≠ x.key) ∧
      (op = Op.purge → ∀ x, x ∈ new →
        x.evictList = c.evictList ∧
          ∃ a, mapGet x.items x.key = some a ∧ a ∈ x.evictList ∧
            c1.heap[a]? = some ⟨x.key, x.value⟩) := by
    intro c1 h1 h2 h3
    exact ⟨c1, [], h1, by simp [h2], fun _ x hx => absurd hx (List.not_mem_nil x),
      fun h => absurd h h3⟩
  cases op with
  | add k v =>
    by_cases hk : k ∈ (entries c).map Prod.fst
    · obtain ⟨c1, h1, -, -, -, -, -, h7⟩ := hi.Add_hit v hk
      exact quiet c1 (by simp [Op.apply, h1]) h7 (by simp)
    · by_cases hlen : (c.evictList.length : Int) < c.size
      · obtain ⟨c1, h1, -, -, -, -, -, h7⟩ := hi.Add_miss_room v hk hlen
        exact quiet c1 (by simp [Op.apply, h1]) h7 (by simp)
      · obtain ⟨c1, k0, v0, E, hE, h1, h2, h3, -, -, -, h7⟩ :=
          hi.Add_miss_full v hk (by omega)
        have hnd := hi.entries_keys_nodup
        rw [hE, List.map_cons, List.nodup_cons] at hnd
        have hk0 : k0 ∉ (entries c1).map Prod.fst := by
          rw [h3]
          simp only [List.map_append, List.map_cons, List.map_nil, List.mem_append,
            List.mem_singleton, not_or]
          refine ⟨hnd.1, ?_⟩
          rintro rfl
          exact hk (by rw [hE]; simp)
        exact ⟨c1, _, by simp [Op.apply, h1], h7, fun _ => h2.detached_calls v0 _ hk0,
          fun h => by cases h⟩
  | get k =>
    by_cases hk : k ∈ (entries c).map Prod.fst
    · obtain ⟨v, hv⟩ := exists_value_of_mem_keys hk
      obtain ⟨c1, h1, -, -, -, -, -, h7⟩ := hi.Get_hit hv
      exact quiet c1 (by simp [Op.apply, h1]) h7 (by simp)
    · exact quiet c (by simp [Op.apply, hi.Get_miss hk]) rfl (by simp)
  | peek k =>
    by_cases hk : k ∈ (entries c).map Prod.fst
    · obtain ⟨v, hv⟩ := exists_value_of_mem_keys hk
      exact quiet c (by simp [Op.apply, hi.Peek_hit hv]) rfl (by simp)
    · exact quiet c (by simp [Op.apply, hi.Peek_miss hk]) rfl (by simp)
  | contains k => exact quiet c (by simp [Op.apply, LRU.Contains]) rfl (by simp)
  | remove k =>
    by_cases hk : k ∈ (entries c).map Prod.fst
    · obtain ⟨v, hv⟩ := exists_value_of_mem_keys hk
      obtain ⟨c1, h1, h2, h3, -, -, -, h7⟩ := hi.Remove_hit hv
      have hk0 : k ∉ (entries c1).map Prod.fst := by
        rw [h3]
        simp
      exact ⟨c1, _, by simp [Op.apply, h1], h7, fun _ => h2.detached_calls v _ hk0,
        fun h => by cases h⟩
    · exact quiet c (by simp [Op.apply, hi.Remove_miss hk]) rfl (by simp)
  | removeOldest =>
    cases hE : entries c with
    | nil => exact quiet c (by simp [Op.apply, hi.RemoveOldest_nil hE]) rfl (by simp)
    | cons p E =>
      obtain ⟨k, v⟩ := p
      obtain ⟨c1, h1, h2, h3, -, -, -, h7⟩ := hi.RemoveOldest_cons hE
      have hnd := hi.entries_keys_nodup
      rw [hE, List.map_cons, List.nodup_cons] at hnd
      have hk0 : k ∉ (entries c1).map Prod.fst := by
        rw [h3]
        exact hnd.1
      exact ⟨c1, _, by simp [Op.apply, h1], h7, fun _ => h2.detached_calls v _ hk0,
        fun h => by cases h⟩
  | getOldest =>
    cases hE : entries c with
    | nil => exact quiet c (by simp [Op.apply, hi.GetOldest_nil hE]) rfl (by simp)
    | cons p E =>
      obtain ⟨k, v⟩ := p
      exact quiet c (by simp [Op.apply, hi.GetOldest_cons hE]) rfl (by simp)
  | keys => exact quiet c (by simp [Op.apply, hi.Keys_eq]) rfl (by simp)
  | len => exact quiet c (by simp [Op.apply, LRU.Len]) rfl (by simp)
  | purge =>
    obtain ⟨c1, new, h1, h2, -, -, h5⟩ := hi.Purge_calls
    exact ⟨c1, new, by simp [Op.apply, h1], h2, fun h => absurd rfl h, fun _ => h5⟩

end Claims6

/-- Counterexample to C17 as stated: `Purge()` on the cache after
`NewLRU(2, cb)`, `Add(1, 10)`, `Add(2, 20)` calls the callback with `(1, 10)`
while key 1 is still in the key index and its element, at address 0, is still
in the recency list. -/
theorem callback_timing_counterexample :
    ∃ (c1 : LRU Nat Nat) (x : Call Nat Nat), Reachable exFull ∧
      exFull.Purge = some (c1, ()) ∧ x ∈ c1.calls ∧ x ∉ exFull.calls ∧
      x.key = 1 ∧ x.value = 10 ∧
      mapGet x.items x.key = some 0 ∧ 0 ∈ x.evictList ∧
      c1.heap[0]? = some ⟨x.key, x.value⟩ :=
  ⟨⟨2, [], [], true, [⟨1, 10⟩, ⟨2, 20⟩],
      [⟨1, 10, [(1, 0), (2, 1)], [1, 0]⟩, ⟨2, 20, [(2, 1)], [1, 0]⟩]⟩,
    ⟨1, 10, [(1, 0), (2, 1)], [1, 0]⟩,
    exFull_reachable, rfl, by decide, by decide, rfl, rfl, rfl, by decide, rfl⟩

/-- Witness of C17: `Add(3, 30)` on the cache after `NewLRU(2, cb)`,
`Add(1, 10)`, `Add(2, 20)`. -/
theorem callback_timing_witness :
    Reachable exFull ∧
    ∃ c1 new, (Op.add 3 30).apply exFull = some c1 ∧ c1.calls = exFull.calls ++ new ∧
      (Op.add 3 30 ≠ Op.purge → ∀ x, x ∈ new →
        x.items = c1.items ∧ x.evictList = c1.evictList ∧ mapGet x.items x.key = none ∧
          ∀ a, a ∈ x.evictList → ∀ e, c1.heap[a]? = some e → e.key ≠ x.key) ∧
      ((Op.add 3 30 : Op Nat Nat) = Op.purge → ∀ x, x ∈ new →
        x.evictList = exFull.evictList ∧
          ∃ a, mapGet x.items x.key = some a ∧ a ∈ x.evictList ∧
            c1.heap[a]? = some ⟨x.key, x.value⟩) :=
  ⟨exFull_reachable, callback_timing exFull (Op.add 3 30) exFull_reachable⟩

/-! ## Totality and the round trip of Add -/

section Claims7
variable {K V : Type} [DecidableEq K]

/-- C20 (round trip of Add): on a reachable cache of any size, full or not,
right after `Add k v` the calls `Contains k`, `Peek k` and `Get k` report `k`
present with value `v`; the callback invocations made by the `Add` are for
another key, so the entry just inserted is never the one evicted. -/
theorem add_get_round_trip (c : LRU K V) (k : K) (v : V) (hr : Reachable c) :
    ∃ c1 r c2 new, c.Add k v = some (c1, r) ∧
      c1.Contains k = some (c1, true) ∧
      c1.Peek k = some (c1, (some v, true)) ∧
      c1.Get k = some (c2, (some v, true)) ∧
      c1.calls = c.calls ++ new ∧ ∀ x, x ∈ new → x.key ≠ k := by
  have hw := hr.wf
  have hi := hw.inv
  have key : ∀ (c1 : LRU K V) (E : List (K × V)), Inv c1 → entries c1 = E ++ [(k, v)] →
      c1.Contains k = some (c1, true) ∧ c1.Peek k = some (c1, (some v, true)) ∧
        ∃ c2, c1.Get k = some (c2, (some v, true)) := by
    intro c1 E h1 hE
    have hmem : (k, v) ∈ entries c1 := by rw [hE]; simp
    obtain ⟨c2, h2, -⟩ := h1.Get_hit hmem
    exact ⟨h1.Contains_true.2 (List.mem_map.2 ⟨_, hmem, rfl⟩), h1.Peek_hit hmem, c2, h2⟩
  by_cases hk : k ∈ (entries c).map Prod.fst
  · obtain ⟨c1, h1, h2, h3, -, -, -, h7⟩ := hi.Add_hit v hk
    obtain ⟨g1, g2, c2, g3⟩ := key c1 _ h2 h3
    exact ⟨c1, false, c2, [], h1, g1, g2, g3, by simp [h7],
      fun x hx => absurd hx (List.not_mem_nil x)⟩
  · by_cases hlen : (c.evictList.length : Int) < c.size
    · obtain ⟨c1, h1, h2, h3, -, -, -, h7⟩ := hi.Add_miss_room v hk hlen
      obtain ⟨g1, g2, c2, g3⟩ := key c1 _ h2 h3
      exact ⟨c1, false, c2, [], h1, g1, g2, g3, by simp [h7],
        fun x hx => absurd hx (List.not_mem_nil x)⟩
    · obtain ⟨c1, k0, v0, E, hE, h1, h2, h3, -, -, -, h7⟩ := hi.Add_miss_full v hk (by omega)
      obtain ⟨g1, g2, c2, g3⟩ := key c1 _ h2 h3
      refine ⟨c1, true, c2, _, h1, g1, g2, g3, h7, ?_⟩
      intro x hx
      have hne : k0 ≠ k := by
        rintro rfl
        exact hk (by rw [hE]; simp)
      cases hon : c.onEvict with
      | false =>
        rw [hon] at hx
        simp at hx
      | true =>
        rw [hon] at hx
        simp only [if_true, List.mem_singleton] at hx
        subst hx
        exact hne

end Claims7

/-! ## The order of the entries -/

section Claims8
variable {K V : Type} [DecidableEq K]

/-- Entries other than the one appended at the end are entries of the
sequence they were taken from, in the same order. -/
theorem filter_append_sublist {X E : List (K × V)} (k : K) (v : V) (h : X.Sublist E) :
    ((X ++ [(k, v)]).filter (fun p => decide (p.1 ≠ k))).Sublist E := by
  rw [List.filter_append]
  have : [(k, v)].filter (fun p => decide (p.1 ≠ k)) = [] := by simp
  rw [this, List.append_nil]
  exact (List.filter_sublist X).trans h

theorem specErase_of_not_mem {E : List (K × V)} {k : K} (hnd : (E.map Prod.fst).Nodup)
    (hk : k ∉ E.map Prod.fst) : specErase E k = E := by
  rw [← filter_eq_specErase k hnd, List.filter_eq_self]
  intro q hq
  have : q.1 ≠ k := fun h => hk (List.mem_map.2 ⟨q, hq, h⟩)
  simpa using this

/-- C19 (exact order semantics): write the contents of a reachable cache as
the sequence `E` of its entries from oldest to newest (the sequence `Keys()`,
`Peek` and `Len()` report).  Then `Get k`, `Add k v`, `Remove k` and
`RemoveOldest()` return, and the sequence afterwards is the one the spec-level
operations give: a `Get` hit erases the entry of `k` and appends it again
unchanged, `Add` of a present key erases its entry and appends `(k, v)`, `Add`
of an absent key gives `E ++ [(k, v)]` below the size and `tail(E) ++ [(k, v)]`
at the size, `Remove` erases the entry of `k`, `RemoveOldest` gives `tail(E)`.
In each case the other entries are entries of `E`, with their values, in the
order they have in `E`. -/
theorem exact_order_semantics (c : LRU K V) (k : K) (v : V) (hr : Reachable c) :
    (∃ c1 r, c.Get k = some (c1, r) ∧ entries c1 = specGet (entries c) k ∧
      ((entries c1).filter (fun p => decide (p.1 ≠ k))).Sublist (entries c)) ∧
    (∃ c1 r, c.Add k v = some (c1, r) ∧ entries c1 = specAdd c.size (entries c) k v ∧
      ((entries c1).filter (fun p => decide (p.1 ≠ k))).Sublist (entries c)) ∧
    (∃ c1 r, c.Remove k = some (c1, r) ∧ entries c1 = specRemove (entries c) k ∧
      (entries c1).Sublist (entries c)) ∧
    (∃ c1 r, c.RemoveOldest = some (c1, r) ∧ entries c1 = specRemoveOldest (entries c) ∧
      (entries c1).Sublist (entries c)) ∧
    c.Keys = some (c, (entries c).map (fun p => some p.1)) ∧
    (∀ k1, c.Peek k1 =
      some (c, (specLookup (entries c) k1, (specLookup (entries c) k1).isSome))) ∧
    c.Len = some (c, ((entries c).length : Int)) ∧
    ((entries c).length : Int) ≤ c.size := by
  have hw := hr.wf
  have hi := hw.inv
  have hnd := hi.entries_keys_nodup
  refine ⟨?_, ?_, ?_, ?_, hi.Keys_eq, ?_, hi.Len_eq, ?_⟩
  · by_cases hk : k ∈ (entries c).map Prod.fst
    · obtain ⟨w, hw⟩ := exists_value_of_mem_keys hk
      obtain ⟨c1, h1, -, h3, -⟩ := hi.Get_hit hw
      refine ⟨c1, _, h1, ?_, ?_⟩
      · rw [h3, specGet, specLookup_of_mem hnd hw, filter_eq_specErase k hnd]
      · rw [h3]
        exact filter_append_sublist k w (List.filter_sublist _)
    · refine ⟨c, _, hi.Get_miss hk, ?_, List.filter_sublist _⟩
      rw [specGet, specLookup_of_not_mem hk]
  · by_cases hk : k ∈ (entries c).map Prod.fst
    · obtain ⟨w, hw⟩ := exists_value_of_mem_keys hk
      obtain ⟨c1, h1, -, h3, -⟩ := hi.Add_hit v hk
      refine ⟨c1, _, h1, ?_, ?_⟩
      · rw [h3, specAdd, specLookup_of_mem hnd hw, filter_eq_specErase k hnd]
      · rw [h3]
        exact filter_append_sublist k v (List.filter_sublist _)
    · by_cases hlen : (c.evictList.length : Int) < c.size
      · obtain ⟨c1, h1, -, h3, -⟩ := hi.Add_miss_room v hk hlen
        refine ⟨c1, _, h1, ?_, ?_⟩
        · rw [h3, specAdd, specLookup_of_not_mem hk]
          simp only [hi.entries_length, hlen, if_true]
        · rw [h3]
          exact filter_append_sublist k v (List.Sublist.refl _)
      · obtain ⟨c1, k0, v0, E, hE, h1, -, h3, -⟩ := hi.Add_miss_full v hk (by omega)
        refine ⟨c1, _, h1, ?_, ?_⟩
        · rw [h3, specAdd, specLookup_of_not_mem hk]
          simp only [hi.entries_length, hlen, if_false]
          rw [hE]
          rfl
        · rw [h3, hE]
          exact filter_append_sublist k v (List.sublist_cons_self _ _)
  · by_cases hk : k ∈ (entries c).map Prod.fst
    · obtain ⟨w, hw⟩ := exists_value_of_mem_keys hk
      obtain ⟨c1, h1, -, h3, -⟩ := hi.Remove_hit hw
      refine ⟨c1, _, h1, ?_, ?_⟩
      · rw [h3, specRemove, filter_eq_specErase k hnd]
      · rw [h3]
        exact List.filter_sublist _
    · refine ⟨c, _, hi.Remove_miss hk, ?_, List.Sublist.refl _⟩
      rw [specRemove, specErase_of_not_mem hnd hk]
  · cases hE : entries c with
    | nil =>
      exact ⟨c, _, hi.RemoveOldest_nil hE, by rw [hE]; rfl, by rw [hE]⟩
    | cons p E =>
      obtain ⟨k0, v0⟩ := p
      obtain ⟨c1, h1, -, h3, -⟩ := hi.RemoveOldest_cons hE
      exact ⟨c1, _, h1, by rw [h3]; rfl, by rw [h3]; exact List.sublist_cons_self _ _⟩
  · intro k1
    by_cases hk : k1 ∈ (entries c).map Prod.fst
    · obtain ⟨w, hw⟩ := exists_value_of_mem_keys hk
      rw [hi.Peek_hit hw, specLookup_of_mem hnd hw]
      rfl
    · rw [hi.Peek_miss hk, specLookup_of_not_mem hk]
      rfl
  · rw [hi.entries_length]
    exact hw.len_le

end Claims8

/-- Example of the theorem on Keys: the cache after `NewLRU(2, cb)`, `Add(1, 10)`, `Add(2, 20)`. -/
theorem keys_spec_witness :
    Reachable exFull ∧
    ∃ ks n, exFull.Keys = some (exFull, ks) ∧ exFull.Len = some (exFull, n) ∧
      (ks.length : Int) = n ∧
      ks.Nodup ∧ (∀ x, x ∈ ks → x ≠ none) ∧
      (∀ k, some k ∈ ks ↔ exFull.Contains k = some (exFull, true)) ∧
      ks = (entries exFull).map (fun p => some p.1) ∧
      ks.reverse =
        exFull.evictList.filterMap (fun a => (exFull.heap[a]?).map (fun e => some e.key)) ∧
      (∀ k v, exFull.GetOldest = some (exFull, (some k, some v, true)) →
        ks.head? = some (some k)) :=
  ⟨exFull_reachable, keys_spec exFull exFull_reachable⟩

/-- Witness of C12: `Purge()` on the cache after `NewLRU(2, cb)`, `Add(1, 10)`, `Add(2, 20)`. -/
theorem purge_complete_witness :
    Reachable exFull ∧
    ∃ c1 new, exFull.Purge = some (c1, ()) ∧
      c1.Len = some (c1, 0) ∧ c1.Keys = some (c1, []) ∧
      (∀ k, c1.Contains k = some (c1, false)) ∧
      c1.calls = exFull.calls ++ new ∧
      (exFull.onEvict = true → (new.map Call.args).Perm (entries exFull)) ∧
      (exFull.onEvict = false → new = []) ∧
      c1.size = exFull.size ∧ Reachable c1 ∧
      (∀ k v, ∃ c2, c1.Add k v = some (c2, false) ∧ c2.Peek k = some (c2, (some v, true))) :=
  ⟨exFull_reachable, purge_complete exFull exFull_reachable⟩

/-- Witness of C16: the cache after `NewLRU(2, cb)`, `Add(1, 10)`, `Add(2, 20)`. -/
theorem index_list_agreement_witness :
    Reachable exFull ∧
    (exFull.items.length = exFull.evictList.length ∧
    (∀ k a, mapGet exFull.items k = some a →
      a ∈ exFull.evictList ∧ ∃ e, exFull.heap[a]? = some e ∧ e.key = k) ∧
    (∀ a, a ∈ exFull.evictList →
      ∃ e, exFull.heap[a]? = some e ∧ mapGet exFull.items e.key = some a) ∧
    (exFull.evictList.filterMap (fun a => (exFull.heap[a]?).map (fun e => e.key))).Nodup ∧
    exFull.evictList.Nodup ∧ (exFull.items.map Prod.fst).Nodup) :=
  ⟨exFull_reachable, index_list_agreement exFull exFull_reachable⟩

/-- Witness of C19: key 3 and value 30 on the cache after `NewLRU(2, cb)`,
`Add(1, 10)`, `Add(2, 20)`. -/
theorem exact_order_semantics_witness :
    Reachable exFull ∧
    ((∃ c1 r, exFull.Get 3 = some (c1, r) ∧ entries c1 = specGet (entries exFull) 3 ∧
      ((entries c1).filter (fun p => decide (p.1 ≠ 3))).Sublist (entries exFull)) ∧
    (∃ c1 r, exFull.Add 3 30 = some (c1, r) ∧
      entries c1 = specAdd exFull.size (entries exFull) 3 30 ∧
      ((entries c1).filter (fun p => decide (p.1 ≠ 3))).Sublist (entries exFull)) ∧
    (∃ c1 r, exFull.Remove 3 = some (c1, r) ∧ entries c1 = specRemove (entries exFull) 3 ∧
      (entries c1).Sublist (entries exFull)) ∧
    (∃ c1 r, exFull.RemoveOldest = some (c1, r) ∧
      entries c1 = specRemoveOldest (entries exFull) ∧
      (entries c1).Sublist (entries exFull)) ∧
    exFull.Keys = some (exFull, (entries exFull).map (fun p => some p.1)) ∧
    (∀ k1, exFull.Peek k1 =
      some (exFull, (specLookup (entries exFull) k1, (specLookup (entries exFull) k1).isSome))) ∧
    exFull.Len = some (exFull, ((entries exFull).length : Int)) ∧
    ((entries exFull).length : Int) ≤ exFull.size) :=
  ⟨exFull_reachable, exact_order_semantics exFull 3 30 exFull_reachable⟩

/-- Witness of C20: `Add(3, 30)` on the cache after `NewLRU(2, cb)`, `Add(1, 10)`,
`Add(2, 20)`. -/
theorem add_get_round_trip_witness :
    Reachable exFull ∧
    ∃ c1 r c2 new, exFull.Add 3 30 = some (c1, r) ∧
      c1.Contains 3 = some (c1, true) ∧
      c1.Peek 3 = some (c1, (some 30, true)) ∧
      c1.Get 3 = some (c2, (some 30, true)) ∧
      c1.calls = exFull.calls ++ new ∧ ∀ x, x ∈ new → x.key ≠ 3 :=
  ⟨exFull_reachable, add_get_round_trip exFull 3 30 exFull_reachable⟩

/-! ## Totality -/

section Claims9
variable {K V : Type} [DecidableEq K]

/-- C18, as amended (totality): on a reachable cache, `Add`, `Get`, `Peek` and
`Remove` return for every key of a hashable dynamic type and every value, and
`RemoveOldest`, `GetOldest`, `Len` and `Purge` return; every element of the
list and every element the index points to has its entity, so each
`Value.(*entity)` succeeds; and when `Add` evicts, `removeOldest` finds a back
element, one that was in the list before the new element was pushed. -/
theorem totality_hashable (c : LRU K V) (hr : Reachable c) :
    (∀ (key : Key K) (v : V), (∃ k, key = Key.hashable k) →
      ∃ c1 r, c.AddAny key v = some (c1, r)) ∧
    (∀ key : Key K, (∃ k, key = Key.hashable k) → ∃ c1 r, c.GetAny key = some (c1, r)) ∧
    (∀ key : Key K, (∃ k, key = Key.hashable k) → ∃ c1 r, c.PeekAny key = some (c1, r)) ∧
    (∀ key : Key K, (∃ k, key = Key.hashable k) → ∃ c1 r, c.RemoveAny key = some (c1, r)) ∧
    (∃ c1 r, c.RemoveOldest = some (c1, r)) ∧
    (∃ c1 r, c.GetOldest = some (c1, r)) ∧
    (∃ c1 r, c.Len = some (c1, r)) ∧
    (∃ c1 r, c.Purge = some (c1, r)) ∧
    (∀ a, a ∈ c.evictList → ∃ e, c.heap[a]? = some e) ∧
    (∀ k a, mapGet c.items k = some a → ∃ e, c.heap[a]? = some e) ∧
    (∀ k, mapGet c.items k = none →
      ((PushFront c.evictList c.heap.length).length : Int) > c.size →
      ∃ ent, Back (PushFront c.evictList c.heap.length) = some ent ∧ ent ∈ c.evictList) := by
  have hw := hr.wf
  have hi := hw.inv
  have meth : ∀ {R : Type} (m : Option (LRU K V × R)) (op : Op K V),
      op.apply c = m.map Prod.fst → ∃ c1 r, m = some (c1, r) := by
    intro R m op hop
    obtain ⟨c1, h1, -⟩ := hw.apply op
    rw [hop] at h1
    obtain ⟨⟨c2, r⟩, h2, -⟩ := Option.map_eq_some'.1 h1
    exact ⟨c2, r, h2⟩
  refine ⟨?_, ?_, ?_, ?_, meth _ Op.removeOldest rfl, meth _ Op.getOldest rfl,
    meth _ Op.len rfl, meth _ Op.purge rfl, ?_, ?_, ?_⟩
  · rintro key v ⟨k, rfl⟩
    exact meth _ (Op.add k v) rfl
  · rintro key ⟨k, rfl⟩
    exact meth _ (Op.get k) rfl
  · rintro key ⟨k, rfl⟩
    exact meth _ (Op.peek k) rfl
  · rintro key ⟨k, rfl⟩
    exact meth _ (Op.remove k) rfl
  · intro a ha
    obtain ⟨e, he, -⟩ := hi.list_ok a ha
    exact ⟨e, he⟩
  · intro k a hg
    obtain ⟨-, v, hv⟩ := hi.items_ok k a (mapGet_mem hg)
    exact ⟨_, hv⟩
  · intro k _ hlen
    have hpos := hi.size_pos
    simp only [PushFront, List.length_cons, Nat.cast_add, Nat.cast_one] at hlen
    have hne : c.evictList ≠ [] := by
      intro h0
      rw [h0] at hlen
      simp at hlen
      omega
    refine ⟨c.evictList.getLast hne, ?_, List.getLast_mem hne⟩
    simp only [PushFront, Back]
    rw [List.getLast?_eq_getLast _ (List.cons_ne_nil _ _), List.getLast_cons hne]

end Claims9

/-- Counterexample to C18 as stated: on the cache after `NewLRU(2, cb)`,
`Add(1, 10)`, `Add(2, 20)`, the calls `Add`, `Get`, `Peek` and `Remove` with a
key of an unhashable dynamic type (a slice, say) do not return: the map read
that opens each of them panics. -/
theorem totality_counterexample :
    Reachable exFull ∧
    exFull.AddAny Key.unhashable 30 = none ∧
    exFull.GetAny Key.unhashable = none ∧
    exFull.PeekAny Key.unhashable = none ∧
    exFull.RemoveAny Key.unhashable = none :=
  ⟨exFull_reachable, rfl, rfl, rfl, rfl⟩

/-- Witness of C18: the cache after `NewLRU(2, cb)`, `Add(1, 10)`, `Add(2, 20)`. -/
theorem totality_hashable_witness :
    Reachable exFull ∧
    ((∀ (key : Key Nat) (v : Nat), (∃ k, key = Key.hashable k) →
      ∃ c1 r, exFull.AddAny key v = some (c1, r)) ∧
    (∀ key : Key Nat, (∃ k, key = Key.hashable k) → ∃ c1 r, exFull.GetAny key = some (c1, r)) ∧
    (∀ key : Key Nat, (∃ k, key = Key.hashable k) →
      ∃ c1 r, exFull.PeekAny key = some (c1, r)) ∧
    (∀ key : Key Nat, (∃ k, key = Key.hashable k) →
      ∃ c1 r, exFull.RemoveAny key = some (c1, r)) ∧
    (∃ c1 r, exFull.RemoveOldest = some (c1, r)) ∧
    (∃ c1 r, exFull.GetOldest = some (c1, r)) ∧
    (∃ c1 r, exFull.Len = some (c1, r)) ∧
    (∃ c1 r, exFull.Purge = some (c1, r)) ∧
    (∀ a, a ∈ exFull.evictList → ∃ e, exFull.heap[a]? = some e) ∧
    (∀ k a, mapGet exFull.items k = some a → ∃ e, exFull.heap[a]? = some e) ∧
    (∀ k, mapGet exFull.items k = none →
      ((PushFront exFull.evictList exFull.heap.length).length : Int) > exFull.size →
      ∃ ent, Back (PushFront exFull.evictList exFull.heap.length) = some ent ∧
        ent ∈ exFull.evictList)) :=
  ⟨exFull_reachable, totality_hashable exFull exFull_reachable⟩

end simplelru
